import Mathlib

/-!
Verification of the structural-extractor engine of the Django Structure
Explorer VS Code extension.

The repository contains two versions of the analyzer class
`DjangoProjectAnalyzer`:

* `src/djangoProjectAnalyzer.ts` — embedded below in namespace `Analyzer`;
* an unnamed optimized variant (with the known-base-class list and the
  iterative inheritance-closure loop) — embedded in namespace `AnalyzerOpt`.

All scanners are line-oriented and regex-driven.  Every regular expression
of the source is hand-translated into an executable character-list parser
with the same (deterministic, leftmost/greedy-with-backtracking) matching
semantics, documented next to each definition.
-/

namespace Dse

/-- JS `\s` whitespace class, restricted to the characters that can occur in
a line of text (the sources split on newline first). -/
def jsSpace (c : Char) : Bool :=
  c == ' ' || c == '\t' || c == '\n' || c == '\r' || c == '\x0b' || c == '\x0c'

/-- JS `\w` word-character class: `[A-Za-z0-9_]`. -/
def wordChar (c : Char) : Bool :=
  c.isAlpha || c.isDigit || c == '_'

/-- Does `pat` occur as a prefix of `cs`? -/
def hasPrefixL : List Char → List Char → Bool
  | [], _ => true
  | _ :: _, [] => false
  | p :: ps, c :: cs => p == c && hasPrefixL ps cs

/-- Does `pat` occur as a contiguous substring of `cs`?  (JS `includes`.) -/
def hasInfixL (pat : List Char) : List Char → Bool
  | [] => hasPrefixL pat []
  | c :: cs => hasPrefixL pat (c :: cs) || hasInfixL pat cs

/-- Does `cs` end with `pat`?  (JS `endsWith`.) -/
def hasSuffixL (pat cs : List Char) : Bool :=
  hasPrefixL pat.reverse cs.reverse

/-- JS `String.trim` on a character list. -/
def trimL (cs : List Char) : List Char :=
  ((cs.dropWhile jsSpace).reverse.dropWhile jsSpace).reverse

/-- JS `String.trim`. -/
def trimS (s : String) : String :=
  String.mk (trimL s.data)

/-- Length of the leading whitespace run: the source computes it as
`line.match(/^(\s*)/)[1].length`. -/
def indentOf (line : String) : Nat :=
  (line.data.takeWhile jsSpace).length

/-- Number of occurrences of character `c` (used for the source's
`(str.match(/\(/g) || []).length` parenthesis counters). -/
def countCharS (s : String) (c : Char) : Nat :=
  s.data.count c

/-- JS `str.split(sep)` for a one-character separator (auxiliary). -/
def splitOnCharAux (sep : Char) : List Char → List Char → List (List Char)
  | [], acc => [acc.reverse]
  | c :: cs, acc =>
    if c == sep then acc.reverse :: splitOnCharAux sep cs []
    else splitOnCharAux sep cs (c :: acc)

/-- JS `str.split(sep)` for a one-character separator. -/
def splitOnChar (sep : Char) (cs : List Char) : List (List Char) :=
  splitOnCharAux sep cs []

/-- JS `str.split(',').map(x => x.trim())`, as used on base-class lists
and the lists of imported names throughout the analyzer. -/
def splitCommaTrim (s : String) : List String :=
  (splitOnChar ',' s.data).map (fun cs => String.mk (trimL cs))

/-- `Set.add` on a list kept duplicate-free in insertion order. -/
def insertNew (l : List String) (x : String) : List String :=
  if l.contains x then l else l ++ [x]

/-- Last-write-wins lookup in an association list built by JS object
assignment (`obj[k] = v`). -/
def lookupLast (l : List (String × String)) (k : String) : Option String :=
  (l.reverse.find? (fun p => p.1 == k)).map (fun p => p.2)

/-- Expect the literal string `pat` and return the rest. -/
def eatLit (pat : String) (cs : List Char) : Option (List Char) :=
  if hasPrefixL pat.data cs then some (cs.drop pat.data.length) else none

/-- Regex `\s+`: at least one whitespace character, greedy. -/
def eatSpaces1 (cs : List Char) : Option (List Char) :=
  match cs with
  | c :: _ => if jsSpace c then some (cs.dropWhile jsSpace) else none
  | [] => none

/-- Regex `(\w+)`: a non-empty greedy word-character run. -/
def eatWord1 (cs : List Char) : Option (List Char × List Char) :=
  let p := cs.span wordChar
  if p.1.isEmpty then none else some p

/-- Split `cs` at the first occurrence of the substring `pat`
(the part before, and the part after the occurrence).  This is the
semantics of a lazy group `(.*?)` followed by the literal `pat`. -/
def splitUntilSub (pat : List Char) : List Char → Option (List Char × List Char)
  | [] => if pat.isEmpty then some ([], []) else none
  | c :: cs =>
    if hasPrefixL pat (c :: cs) then some ([], (c :: cs).drop pat.length)
    else (splitUntilSub pat cs).map (fun p => (c :: p.1, p.2))

end Dse

namespace Dse

/-- `ModelField` — the analyzer's `ModelField` interface (a Field of the
spec: `name`, `fieldType` is the typeTag, `lineNumber` is 0-based,
`isProperty` marks computed properties). -/
structure ModelField where
  name : String
  fieldType : String
  lineNumber : Nat
  isProperty : Bool
deriving DecidableEq, Repr

/-- `DjangoModel` — a RecordType: name, 0-based declaration line, ordered
field list. -/
structure DjangoModel where
  name : String
  lineNumber : Nat
  fields : List ModelField
deriving DecidableEq, Repr

/-- `DjangoUrl` — a RouteEntry. -/
structure DjangoUrl where
  pattern : String
  viewName : String
  lineNumber : Nat
deriving DecidableEq, Repr

/-- `DjangoAdminClass` — a RegistrationEntry (`modelName` is the
associatedRecordName, possibly empty). -/
structure DjangoAdminClass where
  name : String
  lineNumber : Nat
  modelName : String
deriving DecidableEq, Repr

/-- `DjangoSetting` — a ConfigEntry. -/
structure DjangoSetting where
  name : String
  value : String
  lineNumber : Nat
deriving DecidableEq, Repr

/-- Regex `/^class\s+(\w+)\s*\((.*?)\):/` — the model-class header matcher
of `Analyzer.extractModels`.  Returns (class name, raw base list text).
The lazy group ends at the first occurrence of `):`. -/
def matchClassHeaderA (line : String) : Option (String × String) :=
  (eatLit "class" line.data).bind fun r1 =>
  (eatSpaces1 r1).bind fun r2 =>
  (eatWord1 r2).bind fun p =>
  match (p.2.dropWhile jsSpace) with
  | '(' :: r5 => (splitUntilSub [')', ':'] r5).map fun q => (String.mk p.1, String.mk q.1)
  | _ => none

/-- Regex `/^class\s+(\w+)\s*\(([^)]+)\)/` — the class matcher used by the
two model-name passes of `AnalyzerOpt.extractModels`.  The base-list group
is the non-empty run up to the first `)`. -/
def matchClassHeaderB (line : String) : Option (String × String) :=
  (eatLit "class" line.data).bind fun r1 =>
  (eatSpaces1 r1).bind fun r2 =>
  (eatWord1 r2).bind fun p =>
  match (p.2.dropWhile jsSpace) with
  | '(' :: r5 =>
    let q := r5.span (fun c => !(c == ')'))
    if q.1.isEmpty then none
    else match q.2 with
      | ')' :: _ => some (String.mk p.1, String.mk q.1)
      | _ => none
  | _ => none

/-- Regex `/^class\s+(\w+)\s*\(/` — the class matcher of the main scan of
`AnalyzerOpt.extractModels`, applied to the raw (untrimmed) line, so only
zero-indentation classes match. -/
def rawClassMatch (line : String) : Option String :=
  (eatLit "class" line.data).bind fun r1 =>
  (eatSpaces1 r1).bind fun r2 =>
  (eatWord1 r2).bind fun p =>
  match (p.2.dropWhile jsSpace) with
  | '(' :: _ => some (String.mk p.1)
  | _ => none

/-- Regex `/^\s+class\s+Meta\s*:/` applied to the raw line: detects entry
into a nested `Meta` class (requires at least one leading space). -/
def matchMeta (line : String) : Bool :=
  match eatSpaces1 line.data with
  | some r =>
    (match (eatLit "class" r).bind eatSpaces1 with
     | some r2 =>
       (match eatLit "Meta" r2 with
        | some r3 =>
          (match r3.dropWhile jsSpace with
           | ':' :: _ => true
           | _ => false)
        | none => false)
     | none => false)
  | none => false

/-- Regex `/^\s+def\s+(\w+)\s*\(/` — an indented method header. -/
def matchDefMethod (line : String) : Option String :=
  (eatSpaces1 line.data).bind fun r =>
  (eatLit "def" r).bind fun r1 =>
  (eatSpaces1 r1).bind fun r2 =>
  (eatWord1 r2).bind fun p =>
  match (p.2.dropWhile jsSpace) with
  | '(' :: _ => some (String.mk p.1)
  | _ => none

/-- Common prefix `^\s+(\w+)\s*=\s*` of all field patterns: an indented
assignment.  Returns the assigned name and the rest after `=` and spaces. -/
def parseFieldPrefix (line : String) : Option (String × List Char) :=
  (eatSpaces1 line.data).bind fun r =>
  (eatWord1 r).bind fun p =>
  match (p.2.dropWhile jsSpace) with
  | '=' :: r2 => some (String.mk p.1, r2.dropWhile jsSpace)
  | _ => none

/-- Tail `(\w+)\s*\(?(.*)` of the field patterns: the constructor name, an
optional opening parenthesis (consumed but NOT part of the captured rest),
and the captured rest of the line. -/
def parseAfterType (r : List Char) : Option (String × String) :=
  (eatWord1 r).map fun p =>
  let r2 := p.2.dropWhile jsSpace
  let r3 := match r2 with
    | '(' :: tl => tl
    | _ => r2
  (String.mk p.1, String.mk r3)

/-- Field pattern `^\s+(\w+)\s*=\s*models\.(\w+)\s*\(?(.*)` (name, type,
rest-of-line after the optional `(`). -/
def matchFieldStd (line : String) : Option (String × String × String) :=
  (parseFieldPrefix line).bind fun p =>
  (eatLit "models." p.2).bind fun r =>
  (parseAfterType r).map fun q => (p.1, q.1, q.2)

/-- Field pattern for a discovered alias: `^\s+(\w+)\s*=\s*ALIAS\.(\w+)\s*\(?(.*)`. -/
def matchFieldAlias (aliasName : String) (line : String) : Option (String × String × String) :=
  (parseFieldPrefix line).bind fun p =>
  (eatLit (aliasName ++ ".") p.2).bind fun r =>
  (parseAfterType r).map fun q => (p.1, q.1, q.2)

/-- Alternation over the directly-imported names (in list order, as the
source joins them with `|`): the first name that matches literally wins,
then `\s*\(?(.*)` as in the other field patterns. -/
def matchAlt : List String → List Char → Option (String × String)
  | [], _ => none
  | imp :: rest, r =>
    if hasPrefixL imp.data r then
      let r1 := (r.drop imp.data.length).dropWhile jsSpace
      let r2 := match r1 with
        | '(' :: tl => tl
        | _ => r1
      some (imp, String.mk r2)
    else matchAlt rest r

/-- Field pattern `^\s+(\w+)\s*=\s*(imp1|imp2|...)\s*\(?(.*)` for the
directly imported names. -/
def matchFieldDirect (imps : List String) (line : String) : Option (String × String × String) :=
  (parseFieldPrefix line).bind fun p =>
  (matchAlt imps p.2).map fun q => (p.1, q.1, q.2)

/-- The field-pattern cascade of `extractModels`: standard pattern, then the
alias pattern (when an alias was discovered), then the direct-import
pattern (when any direct imports were discovered). -/
def fieldMatchAll (al : Option String) (di : List String) (line : String) :
    Option (String × String × String) :=
  match matchFieldStd line with
  | some r => some r
  | none =>
    match al.bind (fun a => matchFieldAlias a line) with
    | some r => some r
    | none => if di.isEmpty then none else matchFieldDirect di line

/-- Fallback pattern `/^\s+(\w+)\s*=\s*(\w+)(?:\.(\w+))?\s*\(?(.*)/`; the
resulting type tag is group 3 when present, otherwise group 2 (source:
`otherFieldMatch[3] || otherFieldMatch[2]`). -/
def matchOtherField (line : String) : Option (String × String × String) :=
  (parseFieldPrefix line).bind fun p =>
  (eatWord1 p.2).bind fun q =>
  let afterDot : Option (List Char × List Char) :=
    match q.2 with
    | '.' :: r2 =>
      (match eatWord1 r2 with
       | some w => some w
       | none => none)
    | _ => none
  match afterDot with
  | some w =>
    let r2 := w.2.dropWhile jsSpace
    let r3 := match r2 with
      | '(' :: tl => tl
      | _ => r2
    some (p.1, String.mk w.1, String.mk r3)
  | none =>
    let r2 := q.2.dropWhile jsSpace
    let r3 := match r2 with
      | '(' :: tl => tl
      | _ => r2
    some (p.1, String.mk q.1, String.mk r3)

end Dse

namespace Dse

/-- Alias import regex `/^from\s+django\.db\s+import\s+models\s+as\s+(\w+)/`
applied to the trimmed line. -/
def matchAliasImport (tl : String) : Option String :=
  (eatLit "from" tl.data).bind fun r =>
  (eatSpaces1 r).bind fun r1 =>
  (eatLit "django.db" r1).bind fun r2 =>
  (eatSpaces1 r2).bind fun r3 =>
  (eatLit "import" r3).bind fun r4 =>
  (eatSpaces1 r4).bind fun r5 =>
  (eatLit "models" r5).bind fun r6 =>
  (eatSpaces1 r6).bind fun r7 =>
  (eatLit "as" r7).bind fun r8 =>
  (eatSpaces1 r8).bind fun r9 =>
  (eatWord1 r9).map fun p => String.mk p.1

/-- Direct-import regex `/^from\s+django\.db\.models\s+import\s+(.+)$/` on
the trimmed line; captures the raw list text of imported names. -/
def matchDirectImport (tl : String) : Option String :=
  (eatLit "from" tl.data).bind fun r =>
  (eatSpaces1 r).bind fun r1 =>
  (eatLit "django.db.models" r1).bind fun r2 =>
  (eatSpaces1 r2).bind fun r3 =>
  (eatLit "import" r3).bind fun r4 =>
  (eatSpaces1 r4).bind fun r5 =>
  if r5.isEmpty then none else some (String.mk r5)

/-- Base-class import regex `/^from\s+([\w.]+)\s+import\s+([\w,\s]+)$/` on the
trimmed line: module path (word chars and dots), then an import list made of
word chars, commas and whitespace that must reach the end of the line. -/
def matchBaseImport (tl : String) : Option (String × String) :=
  (eatLit "from" tl.data).bind fun r =>
  (eatSpaces1 r).bind fun r1 =>
  let p := r1.span (fun c => wordChar c || c == '.')
  if p.1.isEmpty then none else
  (eatSpaces1 p.2).bind fun r2 =>
  (eatLit "import" r2).bind fun r3 =>
  (eatSpaces1 r3).bind fun r4 =>
  if r4.isEmpty then none
  else if r4.all (fun c => wordChar c || c == ',' || jsSpace c) then
    some (String.mk p.1, String.mk r4)
  else none

/-- Alias discovery: the source loops over the first 30 lines, overwriting
`importAliases['models']` on every match, so the last match wins. -/
def importAliasOf (lines : List String) : Option String :=
  (lines.take 30).foldl
    (fun acc l =>
      match matchAliasImport (trimS l) with
      | some a => some a
      | none => acc) none

/-- Direct-import discovery over the first 30 lines (appending split-and-
trimmed names in order). -/
def directImportsOf (lines : List String) : List String :=
  (lines.take 30).foldl
    (fun acc l =>
      match matchDirectImport (trimS l) with
      | some s => acc ++ splitCommaTrim s
      | none => acc) []

/-- Imported-base-class discovery over the first 30 lines: each imported
name is mapped (JS object assignment, last write wins) to its module. -/
def importedBaseOf (lines : List String) : List (String × String) :=
  (lines.take 30).foldl
    (fun acc l =>
      match matchBaseImport (trimS l) with
      | some m => acc ++ (splitCommaTrim m.2).map (fun n => (n, m.1))
      | none => acc) []

/-- `isDjangoModel(baseClass, definedModels)` of `Analyzer.extractModels`:
direct root markers, locally-known model classes, or an imported base class
whose module looks like a models module. -/
def isDjangoModelA (ibc : List (String × String)) (defined : List String)
    (base : String) : Bool :=
  if base == "models.Model" || base == "Model" then true
  else
    let cleanBase := trimS base
    if defined.contains cleanBase then true
    else
      match lookupLast ibc cleanBase with
      | some module =>
        hasInfixL "django.db.models".data module.data ||
        hasInfixL "django.contrib.gis.db.models".data module.data ||
        hasSuffixL ".models".data module.data
      | none => false

/-- First pass of `Analyzer.extractModels`: every class whose (trimmed) line
matches the class regex and whose base list contains the literal root marker
`models.Model` or `Model` is recorded as a local model class. -/
def pass1A (lines : List String) : List String :=
  lines.foldl
    (fun acc l =>
      match matchClassHeaderA (trimS l) with
      | some p =>
        if ((splitCommaTrim p.2).any fun b => b == "models.Model" || b == "Model") then
          insertNew acc p.1
        else acc
      | none => acc) []

end Dse

namespace Dse

/-- The loop-local scanner state of `extractModels` (both versions).
`localModelClasses` is only mutated by the `Analyzer` version; the
`AnalyzerOpt` version computes its model-class set up front. -/
structure ScanState where
  models : List DjangoModel
  currentModel : Option DjangoModel
  inModelDefinition : Bool
  inMetaClass : Bool
  classIndentation : Nat
  fieldStartIndentation : Nat
  currentFieldName : String
  currentFieldType : String
  currentFieldLine : Nat
  parenthesesCount : Int
  isPropertyMethod : Bool
  localModelClasses : List String
deriving DecidableEq, Repr

/-- Initial scanner state. -/
def initState (init : List String) : ScanState :=
  ⟨[], none, false, false, 0, 0, "", "", 0, 0, false, init⟩

/-- Append a field to a model under construction. -/
def pushCurField (m : DjangoModel) (f : ModelField) : DjangoModel :=
  { m with fields := m.fields ++ [f] }

/-- Net parenthesis count of a captured rest-of-line string. -/
def parenDeltaS (s : String) : Int :=
  (countCharS s '(' : Int) - (countCharS s ')' : Int)

/-- Does the trimmed line start with `#`?  (`line.trim().startsWith('#')`.) -/
def hashStart (s : String) : Bool :=
  match s.data with
  | '#' :: _ => true
  | _ => false

/-- A recognised field-pattern line (`fieldMatch` branch of the source):
flush any pending field, open the new one, finalize it at once if the
captured rest has balanced parentheses. -/
def fieldCase (i ind : Nat) (n t rest : String) (s : ScanState) (m : DjangoModel) :
    ScanState :=
  let m1 := if s.currentFieldName ≠ "" && s.currentFieldType ≠ "" then
      pushCurField m ⟨s.currentFieldName, s.currentFieldType, s.currentFieldLine, false⟩
    else m
  let pc := parenDeltaS rest
  if pc = 0 then
    { s with currentModel := some (pushCurField m1 ⟨n, t, i, false⟩),
             currentFieldName := "", currentFieldType := "", currentFieldLine := i,
             fieldStartIndentation := ind, parenthesesCount := pc }
  else
    { s with currentModel := some m1, currentFieldName := n, currentFieldType := t,
             currentFieldLine := i, fieldStartIndentation := ind, parenthesesCount := pc }

/-- Continuation of a multi-line field: add this full line's parenthesis
delta; when the count reaches zero, finalize the pending field with its
original line number. -/
def contCase (line : String) (s : ScanState) (m : DjangoModel) : ScanState :=
  let pc := s.parenthesesCount + parenDeltaS line
  if pc = 0 then
    { s with currentModel := some (pushCurField m
               ⟨s.currentFieldName, s.currentFieldType, s.currentFieldLine, false⟩),
             currentFieldName := "", currentFieldType := "", parenthesesCount := pc }
  else { s with parenthesesCount := pc }

/-- The fallback looser field pattern branch (`otherFieldMatch`); note that
`fieldStartIndentation` is NOT updated here, mirroring the source. -/
def otherCase (i : Nat) (n t rest : String) (s : ScanState) (m : DjangoModel) :
    ScanState :=
  let m1 := if s.currentFieldName ≠ "" && s.currentFieldType ≠ "" then
      pushCurField m ⟨s.currentFieldName, s.currentFieldType, s.currentFieldLine, false⟩
    else m
  let pc := parenDeltaS rest
  if pc = 0 then
    { s with currentModel := some (pushCurField m1 ⟨n, t, i, false⟩),
             currentFieldName := "", currentFieldType := "", currentFieldLine := i,
             parenthesesCount := pc }
  else
    { s with currentModel := some m1, currentFieldName := n, currentFieldType := t,
             currentFieldLine := i, parenthesesCount := pc }

/-- The shared part of the per-line scan (everything after the decorator and
class-header branches, given an open model `m`): blank lines, `Meta`
detection, scope exit on dedent, `Meta` skipping, property methods, and the
field-pattern cascade. -/
def bodyStep (al : Option String) (di : List String) (i : Nat) (line : String)
    (ind : Nat) (s : ScanState) (m : DjangoModel) : ScanState :=
  if trimS line = "" then s
  else if matchMeta line then { s with inMetaClass := true, isPropertyMethod := false }
  else if ind ≤ s.classIndentation then
    { s with models := s.models ++ [m], currentModel := none,
             inModelDefinition := false, inMetaClass := false, isPropertyMethod := false }
  else if s.inMetaClass then s
  else if s.isPropertyMethod && (matchDefMethod line).isSome then
    match matchDefMethod line with
    | some mn =>
      { s with currentModel := some (pushCurField m ⟨mn, "property", i, true⟩),
               isPropertyMethod := false }
    | none => s
  else
    match fieldMatchAll al di line with
    | some r => fieldCase i ind r.1 r.2.1 r.2.2 s m
    | none =>
      if s.currentFieldName ≠ "" && s.currentFieldType ≠ "" && s.parenthesesCount > 0 then
        contCase line s m
      else if ind = s.fieldStartIndentation && !hashStart (trimS line) then
        match matchOtherField line with
        | some r => otherCase i r.1 r.2.1 r.2.2 s m
        | none => s
      else s

/-- End-of-loop flush of `extractModels`: a trailing open field (when a model
is still open) and a trailing open model. -/
def finalizeScan (s : ScanState) : List DjangoModel :=
  match s.currentModel with
  | none => s.models
  | some m =>
    let m1 := if s.currentFieldName ≠ "" && s.currentFieldType ≠ "" then
        pushCurField m ⟨s.currentFieldName, s.currentFieldType, s.currentFieldLine, false⟩
      else m
    s.models ++ [m1]

end Dse

namespace Dse.Analyzer

open Dse

/-- One line of the main scan of `Analyzer.extractModels`
(src/djangoProjectAnalyzer.ts): decorator flag, class headers (matched on
the raw line, so only top-level classes; a recognised model class opens a
new record and is added to the local model-class set, any other class
header only resets `inMetaClass`/`classIndentation` and does NOT close an
open record), then the shared body. -/
def stepA (al : Option String) (di : List String) (ibc : List (String × String))
    (s : ScanState) (il : Nat × String) : ScanState :=
  if trimS il.2 = "@property" then { s with isPropertyMethod := true }
  else
    match matchClassHeaderA il.2 with
    | some p =>
      if (splitCommaTrim p.2).any (isDjangoModelA ibc s.localModelClasses) then
        { s with models := s.models ++ (s.currentModel.map fun m => [m]).getD [],
                 currentModel := some ⟨p.1, il.1, []⟩, inModelDefinition := true,
                 inMetaClass := false, classIndentation := indentOf il.2,
                 isPropertyMethod := false,
                 localModelClasses := insertNew s.localModelClasses p.1 }
      else
        { s with inMetaClass := false, classIndentation := indentOf il.2,
                 isPropertyMethod := false }
    | none =>
      match s.currentModel with
      | some m =>
        if s.inModelDefinition then bodyStep al di il.1 il.2 (indentOf il.2) s m
        else { s with isPropertyMethod := false }
      | none => { s with isPropertyMethod := false }

/-- `Analyzer.extractModels` on the line list of a file's text. -/
def extractModels (lines : List String) : List DjangoModel :=
  let al := importAliasOf lines
  let di := directImportsOf lines
  let ibc := importedBaseOf lines
  finalizeScan (lines.enum.foldl (stepA al di ibc) (initState (pass1A lines)))

end Dse.Analyzer

namespace Dse.AnalyzerOpt

open Dse

/-- The hard-coded list of common base classes of the optimized analyzer
that mark a class as a model. -/
def modelBaseClasses : List String :=
  ["Model", "models.Model", "TranslatableModel", "MPTTModel", "AbstractUser",
   "AbstractBaseUser", "TimeStampedModel", "BaseModel", "DjangoModel",
   "ChangeControlMixin", "SoftDeletableModel", "TimestampedModel", "UUIDModel",
   "TreeModel", "Page", "AbstractPage", "AbstractModel", "AbstractBaseModel"]

/-- `base.split('.')?.pop() || base`: the last dot-separated segment of a
base-class reference, falling back to the whole text when that segment is
empty (JS `||` on a falsy empty string). -/
def lastSegOrSelf (b : String) : String :=
  match (splitOnChar '.' b.data).getLast? with
  | some l => if l.isEmpty then b else String.mk l
  | none => b

/-- `isDjangoModel(baseClass)` of the optimized analyzer: root markers or
an imported base class from a models-like module (no local-class lookup
in this version). -/
def isDjangoModelB (ibc : List (String × String)) (base : String) : Bool :=
  if base == "models.Model" || base == "Model" then true
  else
    match lookupLast ibc (trimS base) with
    | some module =>
      hasInfixL "django.db.models".data module.data ||
      hasInfixL "django.contrib.gis.db.models".data module.data ||
      hasSuffixL ".models".data module.data
    | none => false

/-- A class-declaration line as seen by the two model-name passes: the
trimmed line must start with `class ` and match the class regex; the base
list is split on commas and trimmed. -/
def classLineB (l : String) : Option (String × List String) :=
  let tl := trimS l
  if hasPrefixL "class ".data tl.data then
    (matchClassHeaderB tl).map fun p => (p.1, splitCommaTrim p.2)
  else none

/-- First pass of the optimized analyzer: classes inheriting from a known
base class (matching on the last dotted segment) or from an imported
models-module class. -/
def pass1B (ibc : List (String × String)) (lines : List String) : List String :=
  lines.foldl
    (fun acc l =>
      match classLineB l with
      | some p =>
        if p.2.any (fun b => modelBaseClasses.contains (lastSegOrSelf b) || isDjangoModelB ibc b) then
          insertNew acc p.1
        else acc
      | none => acc) []

/-- One pass of the closure loop: add any not-yet-known class one of whose
bases is an already-known model class (the set evolves within the pass,
mirroring the mutated JS `Set`). -/
def onePassB (lines : List String) (s : List String) : List String :=
  lines.foldl
    (fun acc l =>
      match classLineB l with
      | some p =>
        if acc.contains p.1 then acc
        else if p.2.any acc.contains then insertNew acc p.1
        else acc
      | none => acc) s

/-- The `while (newModelsFound)` loop: repeat `onePassB` until a pass adds
nothing new.  Each productive pass strictly grows the set, which is bounded
by the number of lines, so `lines.length + 1` iterations always reach the
fixed point (proved below). -/
def closureIter (lines : List String) : Nat → List String → List String
  | 0, s => s
  | n + 1, s =>
    if onePassB lines s = s then s else closureIter lines n (onePassB lines s)

/-- The final model-class set of the optimized analyzer. -/
def modelClassesB (ibc : List (String × String)) (lines : List String) : List String :=
  closureIter lines (lines.length + 1) (pass1B ibc lines)

/-- One line of the main scan of the optimized `extractModels`: decorator
flag; a raw (top-level) class header that is a known model class closes any
open record and opens a new one; any other line (including a top-level
class header NOT in the model-class set) falls through to the shared body,
where a top-level line closes an open record by the dedent rule. -/
def stepB (al : Option String) (di : List String) (mc : List String)
    (s : ScanState) (il : Nat × String) : ScanState :=
  if trimS il.2 = "@property" then { s with isPropertyMethod := true }
  else
    match rawClassMatch il.2 with
    | some cn =>
      if mc.contains cn then
        { s with models := s.models ++ (s.currentModel.map fun m => [m]).getD [],
                 currentModel := some ⟨cn, il.1, []⟩, inModelDefinition := true,
                 inMetaClass := false, classIndentation := indentOf il.2,
                 isPropertyMethod := false }
      else
        match s.currentModel with
        | some m =>
          if s.inModelDefinition then bodyStep al di il.1 il.2 (indentOf il.2) s m
          else { s with isPropertyMethod := false }
        | none => { s with isPropertyMethod := false }
    | none =>
      match s.currentModel with
      | some m =>
        if s.inModelDefinition then bodyStep al di il.1 il.2 (indentOf il.2) s m
        else { s with isPropertyMethod := false }
      | none => { s with isPropertyMethod := false }

/-- The optimized `extractModels` on the line list of a file's text. -/
def extractModels (lines : List String) : List DjangoModel :=
  let al := importAliasOf lines
  let di := directImportsOf lines
  let ibc := importedBaseOf lines
  let mc := modelClassesB ibc lines
  finalizeScan (lines.enum.foldl (stepB al di mc) (initState []))

end Dse.AnalyzerOpt

namespace Dse

/-- Dotted reference `(\w+(?:\.\w+)*)`: a word, then greedily `.word`
segments (auxiliary, fuel = remaining length bound). -/
def eatDottedAux : Nat → List Char → List Char → (List Char × List Char)
  | 0, acc, r => (acc, r)
  | fuel + 1, acc, r =>
    match r with
    | '.' :: r1 =>
      let p := r1.span wordChar
      if p.1.isEmpty then (acc, r)
      else eatDottedAux fuel (acc ++ '.' :: p.1) p.2
    | _ => (acc, r)

/-- Regex `(\w+(?:\.\w+)*)`. -/
def eatDotted (cs : List Char) : Option (List Char × List Char) :=
  (eatWord1 cs).map fun p => eatDottedAux cs.length p.1 p.2

/-- Try the route pattern `LIT\s*\(\s*['"]([^'"]+)['"]\s*,\s*(\w+(?:\.\w+)*)`
at the start of `cs` (shared by the `path`, `re_path` and `url` matchers).
Either quote character opens or closes the string literal, exactly as the
character class `['"]` does. -/
def tryUrlAt (lit : String) (cs : List Char) : Option (String × String) :=
  (eatLit lit cs).bind fun r1 =>
  match r1.dropWhile jsSpace with
  | '(' :: r3 =>
    (match r3.dropWhile jsSpace with
     | q :: r5 =>
       if q == '\'' || q == '"' then
         let p := r5.span (fun c => !(c == '\'' || c == '"'))
         if p.1.isEmpty then none
         else match p.2 with
           | q2 :: r7 =>
             if q2 == '\'' || q2 == '"' then
               (match r7.dropWhile jsSpace with
                | ',' :: r9 =>
                  (eatDotted (r9.dropWhile jsSpace)).map fun d =>
                    (String.mk p.1, String.mk d.1)
                | _ => none)
             else none
           | [] => none
       else none
     | [] => none)
  | _ => none

/-- Leftmost unanchored search for a route pattern (JS `line.match`). -/
def findUrlMatch (lit : String) : List Char → Option (String × String)
  | [] => none
  | c :: cs =>
    match tryUrlAt lit (c :: cs) with
    | some r => some r
    | none => findUrlMatch lit cs

/-- `lines[i].match(pathRegex) || lines[i].match(rePathRegex) ||
lines[i].match(urlRegex)` — the direct-route match of `extractUrls`. -/
def matchDirectUrl (line : String) : Option (String × String) :=
  match findUrlMatch "path" line.data with
  | some r => some r
  | none =>
    match findUrlMatch "re_path" line.data with
    | some r => some r
    | none => findUrlMatch "url" line.data

/-- Try the include pattern
`include\s*\(\s*['"]([^'"]+)['"]\s*(?:,\s*['"]([^'"]+)['"]\s*)?\)` at the
start of `cs`.  Returns (module reference, captured namespace prefix or
`""`). -/
def tryIncludeAt (cs : List Char) : Option (String × String) :=
  (eatLit "include" cs).bind fun r1 =>
  match r1.dropWhile jsSpace with
  | '(' :: r3 =>
    (match r3.dropWhile jsSpace with
     | q :: r5 =>
       if q == '\'' || q == '"' then
         let p := r5.span (fun c => !(c == '\'' || c == '"'))
         if p.1.isEmpty then none
         else match p.2 with
           | q2 :: r7 =>
             if q2 == '\'' || q2 == '"' then
               (match r7.dropWhile jsSpace with
                | ')' :: _ => some (String.mk p.1, "")
                | ',' :: r9 =>
                  (match r9.dropWhile jsSpace with
                   | q3 :: r10 =>
                     if q3 == '\'' || q3 == '"' then
                       let p2 := r10.span (fun c => !(c == '\'' || c == '"'))
                       if p2.1.isEmpty then none
                       else match p2.2 with
                         | q4 :: r11 =>
                           if q4 == '\'' || q4 == '"' then
                             (match r11.dropWhile jsSpace with
                              | ')' :: _ => some (String.mk p.1, String.mk p2.1)
                              | _ => none)
                           else none
                         | [] => none
                     else none
                   | [] => none)
                | _ => none)
             else none
           | [] => none
       else none
     | [] => none)
  | _ => none

/-- Leftmost unanchored search for the include pattern. -/
def findInclude : List Char → Option (String × String)
  | [] => none
  | c :: cs =>
    match tryIncludeAt (c :: cs) with
    | some r => some r
    | none => findInclude cs

/-- `content.split('\n')`. -/
def splitLines (content : String) : List String :=
  (splitOnChar '\n' content.data).map String.mk

/-- A model of the file system seen by the analyzer: a set of existing
directories, and readable files with their contents. -/
structure FS where
  dirs : List String
  files : List (String × String)
deriving DecidableEq, Repr

/-- `fs.readFile` (None models a read failure / missing file). -/
def readFS (fs : FS) (p : String) : Option String :=
  (fs.files.find? (fun q => q.1 == p)).map (fun q => q.2)

/-- `fs.existsSync`. -/
def existsFS (fs : FS) (p : String) : Bool :=
  fs.dirs.contains p || fs.files.any (fun q => q.1 == p)

/-- `path.dirname` for the plain relative slash-separated paths the route
resolver manipulates. -/
def pathDirname (p : String) : String :=
  let parts := splitOnChar '/' p.data
  if parts.length ≤ 1 then "."
  else String.mk (List.intercalate ['/'] parts.dropLast)

/-- `path.join` for plain relative paths. -/
def pathJoin (a b : String) : String :=
  String.mk (a.data ++ '/' :: b.data)

/-- Resolution of an include target (`extractUrls`): only module references
ending in `.urls` resolve; the first dotted segment names an app directory
under the project root (two levels above the current file); the target is
that app's `urls.py`, or `""` when the app directory does not exist. -/
def resolveInclude (fs : FS) (urlsPath module : String) : String :=
  if hasSuffixL ".urls".data module.data then
    let appName := match splitOnChar '.' module.data with
      | [] => ""
      | seg :: _ => String.mk seg
    let projectRoot := pathDirname (pathDirname urlsPath)
    let appPath := pathJoin projectRoot appName
    if existsFS fs appPath then pathJoin appPath "urls.py" else ""
  else ""

/-- The per-line loop of `extractUrls`, parameterized by the recursive call
(`recur`) used for resolved includes.  A `none` result of the recursive
call (fuel exhaustion, modelling divergence) propagates. -/
def urlsGo (recur : String → String → Option (List DjangoUrl)) (fs : FS)
    (urlsPath pre : String) : List (Nat × String) → Option (List DjangoUrl)
  | [] => some []
  | (i, line) :: rest =>
    match matchDirectUrl line with
    | some m =>
      (urlsGo recur fs urlsPath pre rest).map
        (fun tl => ⟨pre ++ m.1, m.2, i⟩ :: tl)
    | none =>
      match findInclude line.data with
      | some inc =>
        if resolveInclude fs urlsPath inc.1 ≠ "" &&
            existsFS fs (resolveInclude fs urlsPath inc.1) then
          match recur (resolveInclude fs urlsPath inc.1) (pre ++ inc.2) with
          | none => none
          | some sub =>
            (urlsGo recur fs urlsPath pre rest).map (fun tl => sub ++ tl)
        else urlsGo recur fs urlsPath pre rest
      | none => urlsGo recur fs urlsPath pre rest

/-- Fuel-indexed model of `extractUrls`: the source recursion has no cycle
guard, so divergence is modelled by fuel exhaustion (`none`).  A read
failure is caught and yields the accumulated (empty) list, as in the
source's try/catch. -/
def extractUrlsFuel : Nat → FS → String → String → Option (List DjangoUrl)
  | 0, _, _, _ => none
  | n + 1, fs, p, pre =>
    match readFS fs p with
    | none => some []
    | some content => urlsGo (extractUrlsFuel n fs) fs p pre (splitLines content).enum

end Dse

namespace Dse

/-- Settings regex `/^([A-Z_][A-Z0-9_]*)\s*=\s*(.+)$/` on the trimmed line:
key (uppercase/underscore start, uppercase/digit/underscore run), `=`, and
a non-empty value capture. -/
def matchSetting (tl : String) : Option (String × String) :=
  match tl.data with
  | c :: _ =>
    if c.isUpper || c == '_' then
      let p := tl.data.span (fun d => d.isUpper || d.isDigit || d == '_')
      match p.2.dropWhile jsSpace with
      | '=' :: r2 =>
        let v := r2.dropWhile jsSpace
        if v.isEmpty then none else some (String.mk p.1, String.mk v)
      | _ => none
    else none
  | [] => none

/-- `value.indexOf('#') > 0` comment stripping: strip from the first `#`
only when it is not the first character of the value. -/
def stripComment (v : String) : String :=
  match v.data.findIdx? (fun c => c == '#') with
  | some k => if 0 < k then trimS (String.mk (v.data.take k)) else v
  | none => v

/-- The multi-line trigger: the initial value contains an opening brace,
bracket or parenthesis whose closing counterpart is absent. -/
def multiTrigger (v : String) : Bool :=
  (hasInfixL ['\x7b'] v.data && !hasInfixL ['\x7d'] v.data) ||
  (hasInfixL ['['] v.data && !hasInfixL [']'] v.data) ||
  (hasInfixL ['('] v.data && !hasInfixL [')'] v.data)

/-- The stop test of the folding loop: note it compares the ORIGINAL initial
value's opening characters against the current line's closing characters. -/
def multiStop (v next : String) : Bool :=
  (hasInfixL ['\x7b'] v.data && hasInfixL ['\x7d'] next.data) ||
  (hasInfixL ['['] v.data && hasInfixL [']'] next.data) ||
  (hasInfixL ['('] v.data && hasInfixL [')'] next.data)

/-- The folding loop of `extractSettings`: append ` ` + trimmed next line,
stopping after (and including) the first line passing the stop test; an
unterminated value consumes every remaining line. -/
def foldJoin (v : String) : List String → String → String
  | [], acc => acc
  | l :: ls, acc =>
    let acc1 := acc ++ " " ++ trimS l
    if multiStop v (trimS l) then acc1 else foldJoin v ls acc1

/-- One iteration of the `extractSettings` loop at index `i`: the outer loop
never advances past folded lines, so each index is examined independently. -/
def settingAt (lines : List String) (i : Nat) : Option DjangoSetting :=
  (lines.get? i).bind fun li =>
    if hashStart (trimS li) || trimS li = "" then none
    else
      (matchSetting (trimS li)).map fun kv =>
        ⟨kv.1,
         (if multiTrigger (stripComment (trimS kv.2)) then
            foldJoin (stripComment (trimS kv.2)) (lines.drop (i + 1))
              (stripComment (trimS kv.2))
          else stripComment (trimS kv.2)), i⟩

/-- `extractSettings` on the line list of a file's text. -/
def extractSettingsLines (lines : List String) : List DjangoSetting :=
  (List.range lines.length).filterMap (settingAt lines)

end Dse

namespace Dse

/-- Try the admin-class pattern
`class\s+(\w+)\s*\(\s*(?:admin\.)?(\w+Admin|TabularInline|StackedInline)\s*\)`
at the start of `cs`.  Backtracking over the alternation and optional group
reduces to: after an optional literal `admin.`, the full word run must end
in `Admin` (with at least one preceding word character) or be exactly
`TabularInline`/`StackedInline`, followed by `\s*)`.  Returns the class
name and the total length of the match (to advance the global-scan
cursor). -/
def tryClassAdminAt (cs : List Char) : Option (String × Nat) :=
  (eatLit "class" cs).bind fun r1 =>
  (eatSpaces1 r1).bind fun r2 =>
  (eatWord1 r2).bind fun p =>
  let r3 := p.2.dropWhile jsSpace
  match r3 with
  | '(' :: r4 =>
    let r5 := r4.dropWhile jsSpace
    let r6 := if hasPrefixL "admin.".data r5 then r5.drop 6 else r5
    (eatWord1 r6).bind fun w =>
    let okBase := (hasSuffixL "Admin".data w.1 && 6 ≤ w.1.length) ||
      w.1 = "TabularInline".data || w.1 = "StackedInline".data
    if okBase then
      match w.2.dropWhile jsSpace with
      | ')' :: _ =>
        let rest := (w.2.dropWhile jsSpace).drop 1
        some (String.mk p.1, cs.length - rest.length)
      | _ => none
    else none
  | _ => none

/-- Try the model-association pattern `model\s*=\s*(\w+)` at the start. -/
def tryModelAt (cs : List Char) : Option String :=
  (eatLit "model" cs).bind fun r =>
  match r.dropWhile jsSpace with
  | '=' :: r2 => (eatWord1 (r2.dropWhile jsSpace)).map fun p => String.mk p.1
  | _ => none

/-- Leftmost search for the model-association pattern (the fresh-regex
`exec` on the substring starting at the class match). -/
def findModelAssign : List Char → Option String
  | [] => none
  | c :: cs =>
    match tryModelAt (c :: cs) with
    | some w => some w
    | none => findModelAssign cs

/-- Try the direct-registration pattern
`admin\.site\.register\s*\(\s*(\w+)(?:\s*,\s*(\w+))?\s*\)` at the start:
model name, optional admin-class argument, and the closing parenthesis. -/
def tryRegisterAt (cs : List Char) : Option (String × Option String × Nat) :=
  (eatLit "admin.site.register" cs).bind fun r1 =>
  match r1.dropWhile jsSpace with
  | '(' :: r2 =>
    (eatWord1 (r2.dropWhile jsSpace)).bind fun p =>
    let r3 := p.2.dropWhile jsSpace
    (match r3 with
     | ')' :: rest => some (String.mk p.1, none, cs.length - rest.length)
     | ',' :: r4 =>
       (eatWord1 (r4.dropWhile jsSpace)).bind fun q =>
       (match q.2.dropWhile jsSpace with
        | ')' :: rest => some (String.mk p.1, some (String.mk q.1), cs.length - rest.length)
        | _ => none)
     | _ => none)
  | _ => none

/-- Try the decorator-registration pattern
`@admin\.register\s*\(\s*(\w+)\s*\)\s*\n+\s*class\s+(\w+)`: the whitespace
run after `)` must contain at least one newline (the backtracking semantics
of `\s*\n+\s*`). -/
def tryDecoratorAt (cs : List Char) : Option (String × String × Nat) :=
  (eatLit "@admin.register" cs).bind fun r1 =>
  match r1.dropWhile jsSpace with
  | '(' :: r2 =>
    (eatWord1 (r2.dropWhile jsSpace)).bind fun p =>
    (match p.2.dropWhile jsSpace with
     | ')' :: r3 =>
       let ws := r3.takeWhile jsSpace
       if ws.contains '\n' then
         let r4 := r3.dropWhile jsSpace
         (eatLit "class" r4).bind fun r5 =>
         (eatSpaces1 r5).bind fun r6 =>
         (eatWord1 r6).map fun q =>
           (String.mk p.1, String.mk q.1, cs.length - q.2.length)
       else none
     | _ => none)
  | _ => none

/-- Number of newline characters before position `idx`: the source computes
each entry's line number as
`content.substring(0, idx).split('\n').length - 1`. -/
def lineOfIdx (content : List Char) (idx : Nat) : Nat :=
  (content.take idx).count '\n'

/-- Global scan for the admin-class pattern (the `while (exec)` loop):
leftmost match, resume after the match end.  Returns (class name, match
index) pairs in order.  Fuel bounds the cursor walk. -/
def scanClassAdmin : Nat → List Char → Nat → List (String × Nat)
  | 0, _, _ => []
  | _ + 1, [], _ => []
  | fuel + 1, c :: cs, idx =>
    match tryClassAdminAt (c :: cs) with
    | some r => (r.1, idx) :: scanClassAdmin fuel ((c :: cs).drop r.2) (idx + r.2)
    | none => scanClassAdmin fuel cs (idx + 1)

/-- Global scan for direct registrations. -/
def scanRegister : Nat → List Char → Nat → List (String × Option String × Nat)
  | 0, _, _ => []
  | _ + 1, [], _ => []
  | fuel + 1, c :: cs, idx =>
    match tryRegisterAt (c :: cs) with
    | some r => (r.1, r.2.1, idx) :: scanRegister fuel ((c :: cs).drop r.2.2) (idx + r.2.2)
    | none => scanRegister fuel cs (idx + 1)

/-- Global scan for decorator registrations. -/
def scanDecorator : Nat → List Char → Nat → List (String × String × Nat)
  | 0, _, _ => []
  | _ + 1, [], _ => []
  | fuel + 1, c :: cs, idx =>
    match tryDecoratorAt (c :: cs) with
    | some r => (r.1, r.2.1, idx) :: scanDecorator fuel ((c :: cs).drop r.2.2) (idx + r.2.2)
    | none => scanDecorator fuel cs (idx + 1)

/-- Class-based registration entries: name, line of the match index, and the
associated model name resolved by searching forward from the match index to
the end of the file for the first `model = Identifier` assignment (empty
string when none). -/
def adminClassEntries (content : String) : List DjangoAdminClass :=
  (scanClassAdmin (content.data.length + 1) content.data 0).map fun r =>
    ⟨r.1, lineOfIdx content.data r.2,
     (findModelAssign (content.data.drop r.2)).getD ""⟩

/-- Direct-registration entries (`admin.site.register(Model[, AdminClass])`);
a missing admin-class argument defaults to `ModelAdmin`. -/
def adminRegisterEntries (content : String) : List DjangoAdminClass :=
  (scanRegister (content.data.length + 1) content.data 0).map fun r =>
    ⟨r.2.1.getD "ModelAdmin", lineOfIdx content.data r.2.2, r.1⟩

/-- Decorator-registration entries (`@admin.register(Model)` before a class
header). -/
def adminDecoratorEntries (content : String) : List DjangoAdminClass :=
  (scanDecorator (content.data.length + 1) content.data 0).map fun r =>
    ⟨r.2.1, lineOfIdx content.data r.2.2, r.1⟩

/-- `extractAdminClasses` on a file's text: the three independent scans,
concatenated in source order. -/
def extractAdminClassesText (content : String) : List DjangoAdminClass :=
  adminClassEntries content ++ adminRegisterEntries content ++
    adminDecoratorEntries content

end Dse

namespace Dse

/-- Top-level `extractModels` call on a file path: a read failure is caught
and yields the (still empty) accumulated list. -/
def extractModelsFS (fs : FS) (p : String) : List DjangoModel :=
  match readFS fs p with
  | none => []
  | some c => Analyzer.extractModels (splitLines c)

/-- Top-level `extractAdminClasses` call on a file path. -/
def extractAdminClassesFS (fs : FS) (p : String) : List DjangoAdminClass :=
  match readFS fs p with
  | none => []
  | some c => extractAdminClassesText c

/-- Top-level `extractSettings` call on a file path. -/
def extractSettingsFS (fs : FS) (p : String) : List DjangoSetting :=
  match readFS fs p with
  | none => []
  | some c => extractSettingsLines (splitLines c)

/-- The include targets of a route file: lines with no direct route match
whose include resolves to an existing file.  These are exactly the files on
which `extractUrls` recurses. -/
def includeTargets (fs : FS) (p : String) : List String :=
  match readFS fs p with
  | none => []
  | some c =>
    (splitLines c).filterMap fun l =>
      if (matchDirectUrl l).isSome then none
      else
        match findInclude l.data with
        | some inc =>
          if resolveInclude fs p inc.1 ≠ "" && existsFS fs (resolveInclude fs p inc.1) then
            some (resolveInclude fs p inc.1)
          else none
        | none => none

/-- Bounded include chains: every chain of include resolutions starting at
`p` has length below the index.  On such inputs the recursion of
`extractUrls` terminates. -/
inductive IncBounded (fs : FS) : String → Nat → Prop where
  | step : ∀ (p : String) (n : Nat),
      (∀ q ∈ includeTargets fs p, IncBounded fs q n) → IncBounded fs p (n + 1)

/-- Conditions under which a line, seen by the main scan of
`Analyzer.extractModels` while a multi-line field is open, reaches the
continuation branch: non-blank, not a lone decorator, not a class header,
not a `Meta` header, strictly deeper than the class indentation, and not a
field-pattern match. -/
def contLineOkA (al : Option String) (di : List String) (ci : Nat) (line : String) : Bool :=
  (trimS line != "") && (trimS line != "@property") &&
  (matchClassHeaderA line).isNone && !(matchMeta line) &&
  decide (ci < indentOf line) && (fieldMatchAll al di line).isNone

/-- A continuation run for an open field: all lines are continuation lines,
the running parenthesis count stays positive strictly before the last line,
and reaches exactly zero on the last line. -/
def ContRun (al : Option String) (di : List String) (ci : Nat) :
    Int → List (Nat × String) → Prop
  | _, [] => False
  | c, [x] => contLineOkA al di ci x.2 = true ∧ c + parenDeltaS x.2 = 0
  | c, x :: y :: tl =>
    contLineOkA al di ci x.2 = true ∧ 0 < c + parenDeltaS x.2 ∧
      ContRun al di ci (c + parenDeltaS x.2) (y :: tl)

/-- The class names declared (as the model-name passes see them) in a file's
lines; the closure sets only ever contain such names. -/
def classNamesB (lines : List String) : List String :=
  lines.filterMap fun l => (AnalyzerOpt.classLineB l).map (fun p => p.1)

/-- The key and comment-stripped initial value of a top-level config line
(used to state the multi-line folding claims). -/
def settingHead (lines : List String) (i : Nat) : Option (String × String) :=
  (lines.get? i).bind fun li =>
    (matchSetting (trimS li)).map fun kv => (kv.1, stripComment (trimS kv.2))

end Dse

namespace Dse

/-! ## Shared lemmas -/

/-- A successful setting match implies the line is non-blank and not a
comment line. -/
theorem matchSetting_notHash {tl : String} {kv : String × String}
    (h : matchSetting tl = some kv) : hashStart tl = false ∧ tl ≠ "" := by
  constructor
  · unfold hashStart
    cases hd : tl.data with
    | nil => rfl
    | cons c rest =>
      by_cases hc : c = '#'
      · subst hc
        unfold matchSetting at h
        rw [hd] at h
        have hcond : ('#'.isUpper || '#' == '_') = false := by decide
        simp [hcond] at h
      · split
        next heq => injection heq with h1 _; exact absurd h1 hc
        next => rfl
  · intro he
    subst he
    unfold matchSetting at h
    simp at h

end Dse

namespace Dse

/-- `settingAt` records the scan index as the entry's line number. -/
theorem settingAt_lineNumber {lines : List String} {i : Nat} {e : DjangoSetting}
    (h : settingAt lines i = some e) : e.lineNumber = i := by
  unfold settingAt at h
  cases hl : lines.get? i with
  | none => rw [hl] at h; simp at h
  | some li =>
    rw [hl] at h
    simp only [Option.some_bind] at h
    split at h
    · simp at h
    · cases hm : matchSetting (trimS li) with
      | none => rw [hm] at h; simp at h
      | some kv =>
        rw [hm] at h
        simp only [Option.map_some', Option.some.injEq] at h
        rw [← h]

/-- A produced setting entry is in the extractor's output. -/
theorem settingAt_mem {lines : List String} {i : Nat} {e : DjangoSetting}
    (h : settingAt lines i = some e) : e ∈ extractSettingsLines lines := by
  have hlt : i < lines.length := by
    by_contra hge
    have : lines.get? i = none := List.get?_eq_none.mpr (Nat.le_of_not_lt hge)
    unfold settingAt at h
    rw [this] at h
    simp at h
  exact List.mem_filterMap.mpr ⟨i, List.mem_range.mpr hlt, h⟩

/-- Claim C7: a top-level `KEY = value` line at index `i` whose
comment-stripped value triggers multi-line folding, and whose
bracket/brace/paren is closed (in the sense of the folding loop's stop
test) only on line `i+3`, yields exactly the ConfigEntry whose value is the
space-joined concatenation of the initial value and the three trimmed
continuation lines, recorded at the starting line number `i`; that entry is
in the extractor's output. -/
theorem config_folding_four_lines (lines : List String) (i : Nat)
    (l0 l1 l2 l3 : String) (key rawv : String) (rest : List String)
    (h0 : lines.get? i = some l0)
    (h1 : matchSetting (trimS l0) = some (key, rawv))
    (hdrop : lines.drop (i + 1) = l1 :: l2 :: l3 :: rest)
    (h2 : multiTrigger (stripComment (trimS rawv)) = true)
    (h4 : multiStop (stripComment (trimS rawv)) (trimS l1) = false)
    (h6 : multiStop (stripComment (trimS rawv)) (trimS l2) = false)
    (h8 : multiStop (stripComment (trimS rawv)) (trimS l3) = true) :
    settingAt lines i = some
      ⟨key, stripComment (trimS rawv) ++ " " ++ trimS l1 ++ " " ++ trimS l2 ++ " " ++ trimS l3, i⟩ ∧
    (⟨key, stripComment (trimS rawv) ++ " " ++ trimS l1 ++ " " ++ trimS l2 ++ " " ++ trimS l3, i⟩ :
      DjangoSetting) ∈ extractSettingsLines lines := by
  have hnh := matchSetting_notHash h1
  have hs : settingAt lines i = some
      ⟨key, stripComment (trimS rawv) ++ " " ++ trimS l1 ++ " " ++ trimS l2 ++ " " ++ trimS l3, i⟩ := by
    unfold settingAt
    rw [h0]
    simp only [Option.some_bind]
    rw [if_neg (by simp [hnh.1, hnh.2])]
    rw [h1]
    simp only [Option.map_some', Option.some.injEq, h2, if_true, hdrop]
    unfold foldJoin
    rw [h4]
    unfold foldJoin
    rw [h6]
    unfold foldJoin
    rw [h8]
    simp
  exact ⟨hs, settingAt_mem hs⟩

/-- Witness for C7 on a concrete four-line settings file. -/
theorem config_folding_four_lines_witness :
    settingAt ["X = [1,", "2,", "3,", "]4", "Y = 0"] 0 =
      some ⟨"X", "[1, 2, 3, ]4", 0⟩ ∧
    (⟨"X", "[1, 2, 3, ]4", 0⟩ : DjangoSetting) ∈
      extractSettingsLines ["X = [1,", "2,", "3,", "]4", "Y = 0"] := by
  have h := config_folding_four_lines ["X = [1,", "2,", "3,", "]4", "Y = 0"] 0
    "X = [1," "2," "3," "]4" "X" "[1," ["Y = 0"]
    (by decide) (by decide) (by decide) (by decide) (by decide) (by decide) (by decide)
  exact h

end Dse

namespace Dse

/-- Claim C10 (implicit): the config extractor's outer scan examines every
line independently — folding a multi-line value starting at line `i` does
not advance the scan — so a continuation line `j` inside the folded span
that itself matches the `UPPER_IDENTIFIER = value` pattern produces an
additional, separate ConfigEntry alongside the folded entry of line `i`. -/
theorem config_fold_rescans_continuation (lines : List String) (i j : Nat)
    (k0 v0 : String) (e1 e2 : DjangoSetting)
    (hhead : settingHead lines i = some (k0, v0))
    (htrig : multiTrigger v0 = true)
    (hij : i < j)
    (hspan : ∀ t, i < t → t < j → multiStop v0 (trimS ((lines.get? t).getD "")) = false)
    (h1 : settingAt lines i = some e1)
    (h2 : settingAt lines j = some e2) :
    e1 ∈ extractSettingsLines lines ∧ e2 ∈ extractSettingsLines lines ∧
      e1.lineNumber = i ∧ e2.lineNumber = j ∧ e1 ≠ e2 := by
  refine ⟨settingAt_mem h1, settingAt_mem h2, settingAt_lineNumber h1,
    settingAt_lineNumber h2, ?_⟩
  intro he
  have : e1.lineNumber = e2.lineNumber := by rw [he]
  rw [settingAt_lineNumber h1, settingAt_lineNumber h2] at this
  exact absurd this (Nat.ne_of_lt hij)

/-- Witness for C10: `CONT_X = 1]` is consumed as the continuation line of
the folded value of `A_B` and still yields its own separate entry. -/
theorem config_fold_rescans_continuation_witness :
    (⟨"A_B", "[ CONT_X = 1]", 0⟩ : DjangoSetting) ∈
        extractSettingsLines ["A_B = [", "CONT_X = 1]"] ∧
      (⟨"CONT_X", "1]", 1⟩ : DjangoSetting) ∈
        extractSettingsLines ["A_B = [", "CONT_X = 1]"] ∧
      (0 : Nat) = 0 ∧ (1 : Nat) = 1 ∧
      (⟨"A_B", "[ CONT_X = 1]", 0⟩ : DjangoSetting) ≠ ⟨"CONT_X", "1]", 1⟩ := by
  exact config_fold_rescans_continuation ["A_B = [", "CONT_X = 1]"] 0 1
    "A_B" "[" ⟨"A_B", "[ CONT_X = 1]", 0⟩ ⟨"CONT_X", "1]", 1⟩
    (by decide) (by decide) (by decide)
    (by intro t ht1 ht2; exact absurd ht2 (by omega))
    (by decide) (by decide)

/-- Claim C2 (code bug): evaluation of `Analyzer.extractModels` at the
failing input.  The field `a` on line 1 is held pending (the opening
parenthesis consumed by the pattern's `\(?` is not counted, so the
balanced line is booked as count −1) and flushed only at end of file,
AFTER the computed property of line 3, so the fields of `Foo` carry line
numbers `[3, 1]` — not strictly increasing. -/
theorem fieldOrder_violation_eval :
    Analyzer.extractModels
        ["class Foo(models.Model):", "    a = models.CharField(x=1)",
         "    @property", "    def p(self):", "        return 1"] =
      [⟨"Foo", 0, [⟨"p", "property", 3, true⟩, ⟨"a", "CharField", 1, false⟩]⟩] ∧
    ((Analyzer.extractModels
        ["class Foo(models.Model):", "    a = models.CharField(x=1)",
         "    @property", "    def p(self):", "        return 1"]).map
      (fun m => m.fields.map (fun f => f.lineNumber))) = [[3, 1]] := by
  constructor
  · decide
  · decide

/-- Counterexample to claim C3: `class Bar(object):` is a non-blank
class-declaration line at indentation 0, equal to the header indentation of
the open record `Foo`, yet it does NOT terminate `Foo`'s scope — the later
line 3 still contributes the field `b` to `Foo`. -/
theorem dedent_terminates_counterexample :
    Analyzer.extractModels
        ["class Foo(models.Model):", "    a = models.CharField(x=1)",
         "class Bar(object):", "    b = models.CharField(y=2)"] =
      [⟨"Foo", 0, [⟨"a", "CharField", 1, false⟩, ⟨"b", "CharField", 3, false⟩]⟩] ∧
    indentOf "class Bar(object):" = 0 ∧
    (matchClassHeaderA "class Bar(object):").isSome = true ∧
    trimS "class Bar(object):" ≠ "" := by
  refine ⟨by decide, by decide, by decide, by decide⟩

/-- Claim C9: when reading the input file fails, every extractor returns an
empty result (the fuel-successor case of the route extractor returns an
empty list as well); no failure escapes to the caller. -/
theorem read_failure_empty (fs : FS) (p : String) (h : readFS fs p = none) :
    extractModelsFS fs p = [] ∧ extractAdminClassesFS fs p = [] ∧
      extractSettingsFS fs p = [] ∧
      ∀ (n : Nat) (pre : String), extractUrlsFuel (n + 1) fs p pre = some [] := by
  refine ⟨?_, ?_, ?_, ?_⟩
  · unfold extractModelsFS; rw [h]
  · unfold extractAdminClassesFS; rw [h]
  · unfold extractSettingsFS; rw [h]
  · intro n pre
    unfold extractUrlsFuel
    rw [h]

/-- Witness for C9 on an empty file system. -/
theorem read_failure_empty_witness :
    readFS ⟨[], []⟩ "app/models.py" = none ∧
      (extractModelsFS ⟨[], []⟩ "app/models.py" = [] ∧
       extractAdminClassesFS ⟨[], []⟩ "app/models.py" = [] ∧
       extractSettingsFS ⟨[], []⟩ "app/models.py" = [] ∧
       ∀ (n : Nat) (pre : String),
         extractUrlsFuel (n + 1) ⟨[], []⟩ "app/models.py" pre = some []) :=
  ⟨by decide, read_failure_empty ⟨[], []⟩ "app/models.py" (by decide)⟩

end Dse

namespace Dse

/-- Per-line loop lemma for the prefix property: if every result of the
recursive call extends its own prefix argument, every entry produced by the
loop extends `pre`. -/
theorem urlsGo_startsWith (recur : String → String → Option (List DjangoUrl))
    (fs : FS) (p pre : String)
    (hrec : ∀ fp pre2 sub, recur fp pre2 = some sub →
      ∀ u ∈ sub, ∃ r : List Char, u.pattern.data = pre2.data ++ r) :
    ∀ (en : List (Nat × String)) (urls : List DjangoUrl),
      urlsGo recur fs p pre en = some urls →
      ∀ u ∈ urls, ∃ r : List Char, u.pattern.data = pre.data ++ r := by
  intro en
  induction en with
  | nil =>
    intro urls h u hu
    simp only [urlsGo, Option.some.injEq] at h
    subst h
    simp at hu
  | cons x tl ih =>
    obtain ⟨i, line⟩ := x
    intro urls h u hu
    rw [urlsGo] at h
    split at h
    · next m heq =>
      rw [Option.map_eq_some'] at h
      obtain ⟨tl', htl, hurls⟩ := h
      subst hurls
      rcases List.mem_cons.mp hu with hu1 | hu2
      · subst hu1
        exact ⟨m.1.data, by rw [String.data_append]⟩
      · exact ih tl' htl u hu2
    · next heq =>
      split at h
      · next inc heq2 =>
        split at h
        · next hcond =>
          split at h
          · next heq3 => exact absurd h (by simp)
          · next sub heq3 =>
            rw [Option.map_eq_some'] at h
            obtain ⟨tl', htl, hurls⟩ := h
            subst hurls
            rcases List.mem_append.mp hu with hu1 | hu2
            · obtain ⟨r, hr⟩ := hrec _ _ sub heq3 u hu1
              refine ⟨inc.2.data ++ r, ?_⟩
              rw [hr, String.data_append, List.append_assoc]
            · exact ih tl' htl u hu2
        · next hcond => exact ih urls h u hu
      · next heq2 => exact ih urls h u hu

/-- Claim C6: for every fuel, file system, route file and prefix argument,
every RouteEntry returned by the route extractor has a pattern that begins
with the given prefix (entries of included files carry the include's
namespace prefix concatenated onto the outer prefix through the recursive
call). -/
theorem extractUrls_pattern_startsWith :
    ∀ (n : Nat) (fs : FS) (p pre : String) (urls : List DjangoUrl),
      extractUrlsFuel n fs p pre = some urls →
      ∀ u ∈ urls, ∃ r : List Char, u.pattern.data = pre.data ++ r := by
  intro n
  induction n with
  | zero =>
    intro fs p pre urls h
    simp [extractUrlsFuel] at h
  | succ n ih =>
    intro fs p pre urls h u hu
    rw [extractUrlsFuel] at h
    cases hr : readFS fs p with
    | none =>
      rw [hr] at h
      simp only [Option.some.injEq] at h
      subst h
      simp at hu
    | some content =>
      rw [hr] at h
      exact urlsGo_startsWith (extractUrlsFuel n fs) fs p pre
        (fun fp pre2 sub hs => ih fs fp pre2 sub hs) _ urls h u hu

/-- Witness for C6: a root route file includes the sibling `blog` app's
route file with the literal namespace prefix `blog/`; the resulting entry's
pattern starts with the outer prefix `x/`, and is precisely the outer
prefix + `blog/` + the included pattern. -/
theorem extractUrls_pattern_startsWith_witness :
    extractUrlsFuel 2
        ⟨["p/blog"], [("p/root/urls.py", "include(\x27blog.urls\x27, \x27blog/\x27)"),
                      ("p/blog/urls.py", "path(\x27home/\x27, views.home)")]⟩
        "p/root/urls.py" "x/" =
      some [⟨"x/blog/home/", "views.home", 0⟩] ∧
    (∃ r : List Char, ("x/blog/home/" : String).data = ("x/" : String).data ++ r) := by
  constructor
  · decide
  · exact extractUrls_pattern_startsWith 2
      ⟨["p/blog"], [("p/root/urls.py", "include(\x27blog.urls\x27, \x27blog/\x27)"),
                    ("p/blog/urls.py", "path(\x27home/\x27, views.home)")]⟩
      "p/root/urls.py" "x/" [⟨"x/blog/home/", "views.home", 0⟩] (by decide)
      ⟨"x/blog/home/", "views.home", 0⟩ (by decide)

end Dse

namespace Dse

/-- Counterexample to claim C5: on a self-including route file (the app's
`urls.py` includes its own module), `extractUrls` returns no result for ANY
fuel — the unguarded recursion diverges, so route extraction does not
terminate on every input. -/
theorem extractUrls_cycle_divergence :
    ¬ ∃ n : Nat, (extractUrlsFuel n
      ⟨["proj/app"], [("proj/app/urls.py", "include(\x27app.urls\x27)")]⟩
      "proj/app/urls.py" "").isSome := by
  rintro ⟨n, hn⟩
  have key : ∀ m : Nat, extractUrlsFuel m
      ⟨["proj/app"], [("proj/app/urls.py", "include(\x27app.urls\x27)")]⟩
      "proj/app/urls.py" "" = none := by
    intro m
    induction m with
    | zero => rfl
    | succ m ih =>
      have h1 : extractUrlsFuel (m + 1)
          ⟨["proj/app"], [("proj/app/urls.py", "include(\x27app.urls\x27)")]⟩
          "proj/app/urls.py" "" =
          (match extractUrlsFuel m
              ⟨["proj/app"], [("proj/app/urls.py", "include(\x27app.urls\x27)")]⟩
              "proj/app/urls.py" "" with
           | none => none
           | some sub =>
             (some ([] : List DjangoUrl)).map (fun tl => sub ++ tl)) := rfl
      rw [h1, ih]
  rw [key n] at hn
  simp at hn

/-- Per-line loop lemma for termination: when the recursive call succeeds on
every include target occurring in the lines, the loop produces a result. -/
theorem urlsGo_isSome (recur : String → String → Option (List DjangoUrl))
    (fs : FS) (p pre : String) :
    ∀ en : List (Nat × String),
      (∀ il ∈ en, ∀ inc : String × String, matchDirectUrl il.2 = none →
        findInclude il.2.data = some inc →
        (resolveInclude fs p inc.1 ≠ "" && existsFS fs (resolveInclude fs p inc.1)) = true →
        ∀ pre2, (recur (resolveInclude fs p inc.1) pre2).isSome) →
      (urlsGo recur fs p pre en).isSome := by
  intro en
  induction en with
  | nil => intro _; simp [urlsGo]
  | cons x tl ih =>
    intro h
    obtain ⟨i, line⟩ := x
    have htl : (urlsGo recur fs p pre tl).isSome :=
      ih (fun il hil => h il (List.mem_cons_of_mem _ hil))
    obtain ⟨tl', htl'⟩ := Option.isSome_iff_exists.mp htl
    rw [urlsGo]
    split
    · next m heq => rw [htl']; rfl
    · next heq =>
      split
      · next inc heq2 =>
        split
        · next hcond =>
          have hs := h (i, line) (List.mem_cons_self _ _) inc heq heq2 hcond (pre ++ inc.2)
          obtain ⟨sub, hsub⟩ := Option.isSome_iff_exists.mp hs
          rw [hsub, htl']
          rfl
        · next hcond => rw [htl']; rfl
      · next heq2 => rw [htl']; rfl

/-- Amended claim C5: `extractUrls` terminates exactly on inputs whose
include chains are bounded — if every include chain from the input file has
length below `n` (in particular whenever the reachable include graph is
acyclic), the fuel-`n` model returns a result.  (The source has no cycle
guard, so on a cyclic include graph the recursion diverges; see the
counterexample.) -/
theorem extractUrls_terminates_on_bounded_includes (fs : FS) (p : String) (n : Nat)
    (h : IncBounded fs p n) : ∀ pre, (extractUrlsFuel n fs p pre).isSome := by
  induction h with
  | step p n htgt ih =>
    intro pre
    rw [extractUrlsFuel]
    cases hr : readFS fs p with
    | none => rfl
    | some content =>
      apply urlsGo_isSome
      intro il hil inc hdm hfi hcond pre2
      apply ih
      unfold includeTargets
      rw [hr]
      apply List.mem_filterMap.mpr
      refine ⟨il.2, ?_, ?_⟩
      · exact List.get?_mem (List.mem_enum_iff_get?.mp hil)
      · rw [if_neg (by rw [hdm]; simp)]
        simp only [hfi]
        rw [if_pos hcond]

/-- Witness for the amended claim C5: on an acyclic two-file include graph
the include chains are bounded by 2, and extraction with fuel 2 succeeds. -/
theorem extractUrls_terminates_on_bounded_includes_witness :
    IncBounded
        ⟨["p/blog"], [("p/root/urls.py", "include(\x27blog.urls\x27)"),
                      ("p/blog/urls.py", "path(\x27home/\x27, views.home)")]⟩
        "p/root/urls.py" 2 ∧
      (extractUrlsFuel 2
        ⟨["p/blog"], [("p/root/urls.py", "include(\x27blog.urls\x27)"),
                      ("p/blog/urls.py", "path(\x27home/\x27, views.home)")]⟩
        "p/root/urls.py" "").isSome := by
  have hb : IncBounded
      ⟨["p/blog"], [("p/root/urls.py", "include(\x27blog.urls\x27)"),
                    ("p/blog/urls.py", "path(\x27home/\x27, views.home)")]⟩
      "p/root/urls.py" 2 := by
    apply IncBounded.step
    intro q hq
    have hq' : q = "p/blog/urls.py" := by
      have : includeTargets
          ⟨["p/blog"], [("p/root/urls.py", "include(\x27blog.urls\x27)"),
                        ("p/blog/urls.py", "path(\x27home/\x27, views.home)")]⟩
          "p/root/urls.py" = ["p/blog/urls.py"] := by decide
      rw [this] at hq
      simpa using hq
    subst hq'
    apply IncBounded.step
    intro q2 hq2
    have : includeTargets
        ⟨["p/blog"], [("p/root/urls.py", "include(\x27blog.urls\x27)"),
                      ("p/blog/urls.py", "path(\x27home/\x27, views.home)")]⟩
        "p/blog/urls.py" = [] := by decide
    rw [this] at hq2
    simp at hq2
  exact ⟨hb, extractUrls_terminates_on_bounded_includes _ _ 2 hb ""⟩

end Dse

namespace Dse

/-- `tryModelAt` never matches the empty text. -/
theorem tryModelAt_nil : tryModelAt [] = none := rfl

/-- A failed forward search means the pattern matches at no position. -/
theorem findModelAssign_eq_none {l : List Char} (h : findModelAssign l = none) :
    ∀ j, tryModelAt (l.drop j) = none := by
  induction l with
  | nil => intro j; rw [List.drop_nil]; exact tryModelAt_nil
  | cons c cs ih =>
    rw [findModelAssign] at h
    intro j
    cases hm : tryModelAt (c :: cs) with
    | some w => rw [hm] at h; simp at h
    | none =>
      rw [hm] at h
      cases j with
      | zero => exact hm
      | succ j => exact ih h j

/-- A successful forward search returns the capture of the FIRST matching
position. -/
theorem findModelAssign_eq_some {l : List Char} {w : String}
    (h : findModelAssign l = some w) :
    ∃ k, tryModelAt (l.drop k) = some w ∧ ∀ j, j < k → tryModelAt (l.drop j) = none := by
  induction l with
  | nil => rw [findModelAssign] at h; exact absurd h (by simp)
  | cons c cs ih =>
    rw [findModelAssign] at h
    cases hm : tryModelAt (c :: cs) with
    | some w0 =>
      rw [hm] at h
      simp only [Option.some.injEq] at h
      subst h
      exact ⟨0, hm, fun j hj => absurd hj (Nat.not_lt_zero j)⟩
    | none =>
      rw [hm] at h
      obtain ⟨k, hk, hlt⟩ := ih h
      refine ⟨k + 1, hk, fun j hj => ?_⟩
      cases j with
      | zero => exact hm
      | succ j => exact hlt j (Nat.lt_of_succ_lt_succ hj)

/-- Claim C8: every class-based registration found by the admin scanner
produces an entry whose `modelName` (the associatedRecordName) is the
identifier captured by the first `model = Identifier` assignment at or
after the class declaration's match index — searching forward to the end
of the file — and is the empty string when no such assignment follows. -/
theorem admin_forward_model_search (content : String) (name : String) (idx : Nat)
    (h : (name, idx) ∈ scanClassAdmin (content.data.length + 1) content.data 0) :
    ∃ e ∈ extractAdminClassesText content,
      e.name = name ∧ e.lineNumber = lineOfIdx content.data idx ∧
      ((∃ k, idx ≤ k ∧ tryModelAt (content.data.drop k) = some e.modelName ∧
          ∀ j, idx ≤ j → j < k → tryModelAt (content.data.drop j) = none) ∨
       (e.modelName = "" ∧ ∀ j, idx ≤ j → tryModelAt (content.data.drop j) = none)) := by
  refine ⟨⟨name, lineOfIdx content.data idx,
    (findModelAssign (content.data.drop idx)).getD ""⟩, ?_, rfl, rfl, ?_⟩
  · unfold extractAdminClassesText adminClassEntries
    apply List.mem_append_left
    apply List.mem_append_left
    exact List.mem_map.mpr ⟨(name, idx), h, rfl⟩
  · cases hf : findModelAssign (content.data.drop idx) with
    | some w =>
      left
      obtain ⟨k, hk, hlt⟩ := findModelAssign_eq_some hf
      rw [List.drop_drop] at hk
      refine ⟨idx + k, Nat.le_add_right idx k, by rw [hk]; rfl, ?_⟩
      intro j hj1 hj2
      have := hlt (j - idx) (by omega)
      rw [List.drop_drop, Nat.add_sub_cancel' hj1] at this
      exact this
    | none =>
      right
      refine ⟨rfl, ?_⟩
      intro j hj
      have := findModelAssign_eq_none hf (j - idx)
      rw [List.drop_drop, Nat.add_sub_cancel' hj] at this
      exact this

/-- Witness for C8 on a concrete admin file: `FooAdmin` is associated with
`Bar` via the forward search. -/
theorem admin_forward_model_search_witness :
    ("FooAdmin", 0) ∈
      scanClassAdmin
        (("class FooAdmin(admin.ModelAdmin):\n    model = Bar\n" : String).data.length + 1)
        ("class FooAdmin(admin.ModelAdmin):\n    model = Bar\n" : String).data 0 ∧
    ∃ e ∈ extractAdminClassesText "class FooAdmin(admin.ModelAdmin):\n    model = Bar\n",
      e.name = "FooAdmin" ∧
      e.lineNumber = lineOfIdx ("class FooAdmin(admin.ModelAdmin):\n    model = Bar\n" : String).data 0 ∧
      ((∃ k, 0 ≤ k ∧
          tryModelAt (("class FooAdmin(admin.ModelAdmin):\n    model = Bar\n" : String).data.drop k) =
            some e.modelName ∧
          ∀ j, 0 ≤ j → j < k →
            tryModelAt (("class FooAdmin(admin.ModelAdmin):\n    model = Bar\n" : String).data.drop j) = none) ∨
       (e.modelName = "" ∧ ∀ j, 0 ≤ j →
          tryModelAt (("class FooAdmin(admin.ModelAdmin):\n    model = Bar\n" : String).data.drop j) = none)) :=
  ⟨by decide,
   admin_forward_model_search "class FooAdmin(admin.ModelAdmin):\n    model = Bar\n"
     "FooAdmin" 0 (by decide)⟩

end Dse

namespace Dse

/-- A recognised field line never touches the output list and keeps the open
record's identity. -/
theorem fieldCase_shape (i ind : Nat) (n t rest : String) (s : ScanState) (m : DjangoModel) :
    (fieldCase i ind n t rest s m).models = s.models ∧
    ∃ mo, (fieldCase i ind n t rest s m).currentModel = some mo ∧
      mo.name = m.name ∧ mo.lineNumber = m.lineNumber := by
  simp only [fieldCase]
  repeat' split
  all_goals exact ⟨rfl, _, rfl, by simp [pushCurField], by simp [pushCurField]⟩

/-- A continuation line never touches the output list and keeps the open
record's identity. -/
theorem contCase_shape (line : String) (s : ScanState) (m : DjangoModel)
    (hcm : s.currentModel = some m) :
    (contCase line s m).models = s.models ∧
    ∃ mo, (contCase line s m).currentModel = some mo ∧
      mo.name = m.name ∧ mo.lineNumber = m.lineNumber := by
  simp only [contCase]
  repeat' split
  all_goals first
    | exact ⟨rfl, _, rfl, by simp [pushCurField], by simp [pushCurField]⟩
    | exact ⟨rfl, m, hcm, rfl, rfl⟩

/-- A fallback field line never touches the output list and keeps the open
record's identity. -/
theorem otherCase_shape (i : Nat) (n t rest : String) (s : ScanState) (m : DjangoModel) :
    (otherCase i n t rest s m).models = s.models ∧
    ∃ mo, (otherCase i n t rest s m).currentModel = some mo ∧
      mo.name = m.name ∧ mo.lineNumber = m.lineNumber := by
  simp only [otherCase]
  repeat' split
  all_goals exact ⟨rfl, _, rfl, by simp [pushCurField], by simp [pushCurField]⟩

/-- Structure of one shared-body step: either the output list is untouched
and the open record keeps its name and declaration line, or the open record
`m` is finalized (appended, unchanged) and the scanner leaves record
scope. -/
theorem bodyStep_shape (al : Option String) (di : List String) (i : Nat)
    (line : String) (ind : Nat) (s : ScanState) (m : DjangoModel)
    (hcm : s.currentModel = some m) :
    ((bodyStep al di i line ind s m).models = s.models ∧
      ∃ mo, (bodyStep al di i line ind s m).currentModel = some mo ∧
        mo.name = m.name ∧ mo.lineNumber = m.lineNumber) ∨
    ((bodyStep al di i line ind s m).models = s.models ++ [m] ∧
      (bodyStep al di i line ind s m).currentModel = none) := by
  unfold bodyStep
  repeat' split
  all_goals first
    | exact Or.inr ⟨rfl, rfl⟩
    | exact Or.inl ⟨rfl, m, hcm, rfl, rfl⟩
    | exact Or.inl ⟨rfl, _, rfl, by simp [pushCurField], by simp [pushCurField]⟩
    | exact Or.inl (fieldCase_shape _ _ _ _ _ _ _)
    | exact Or.inl (contCase_shape _ _ _ hcm)
    | exact Or.inl (otherCase_shape _ _ _ _ _ _)

/-- Every step of the `Analyzer` scan only appends to the output list. -/
theorem stepA_models_extend (al : Option String) (di : List String)
    (ibc : List (String × String)) (s : ScanState) (x : Nat × String) :
    ∃ t, (Analyzer.stepA al di ibc s x).models = s.models ++ t := by
  unfold Analyzer.stepA
  split
  · exact ⟨[], (List.append_nil _).symm⟩
  · split
    · split
      · exact ⟨_, rfl⟩
      · exact ⟨[], (List.append_nil _).symm⟩
    · split
      · next m heq =>
        split
        · next hin =>
          rcases bodyStep_shape al di x.1 x.2 (indentOf x.2) s m heq with ⟨h1, _⟩ | ⟨h1, _⟩
          · exact ⟨[], by rw [h1, List.append_nil]⟩
          · exact ⟨[m], h1⟩
        · exact ⟨[], (List.append_nil _).symm⟩
      · exact ⟨[], (List.append_nil _).symm⟩

/-- Folding any further lines never removes or edits already-finalized
records. -/
theorem foldA_models_extend (al : Option String) (di : List String)
    (ibc : List (String × String)) :
    ∀ (rest : List (Nat × String)) (s : ScanState),
      ∃ t, (List.foldl (Analyzer.stepA al di ibc) s rest).models = s.models ++ t := by
  intro rest
  induction rest with
  | nil => intro s; exact ⟨[], (List.append_nil _).symm⟩
  | cons x tl ih =>
    intro s
    obtain ⟨t1, h1⟩ := stepA_models_extend al di ibc s x
    obtain ⟨t2, h2⟩ := ih (Analyzer.stepA al di ibc s x)
    exact ⟨t1 ++ t2, by rw [List.foldl_cons, h2, h1, List.append_assoc]⟩

/-- The end-of-file flush appends at most the still-open record. -/
theorem finalizeScan_extend (s : ScanState) :
    ∃ t, finalizeScan s = s.models ++ t := by
  unfold finalizeScan
  split
  · exact ⟨[], (List.append_nil _).symm⟩
  · split
    · exact ⟨_, rfl⟩
    · exact ⟨_, rfl⟩

/-- Amended claim C3: while a record `m` is open, a non-blank line whose
indentation is at most the record's header indentation terminates the
record's scope PROVIDED the line is neither a lone `@property` decorator
line, nor a class-declaration line, nor a `Meta` header: the record is
finalized exactly as it stands at that line, and no later line changes it —
it survives unchanged in the final output after any further lines and the
end-of-file flush.  (The unamended claim fails for class-declaration lines
that do not open a new record, and for top-level decorator lines; see the
counterexample.) -/
theorem dedent_terminates_amended (al : Option String) (di : List String)
    (ibc : List (String × String)) (s : ScanState) (m : DjangoModel)
    (i : Nat) (line : String)
    (hcm : s.currentModel = some m) (hin : s.inModelDefinition = true)
    (hne : trimS line ≠ "") (hnp : trimS line ≠ "@property")
    (hnc : matchClassHeaderA line = none) (hnm : matchMeta line = false)
    (hind : indentOf line ≤ s.classIndentation) :
    ∀ rest : List (Nat × String), ∃ suffix,
      finalizeScan (List.foldl (Analyzer.stepA al di ibc) s ((i, line) :: rest)) =
        s.models ++ m :: suffix := by
  have hstep : Analyzer.stepA al di ibc s (i, line) =
      { s with models := s.models ++ [m], currentModel := none,
               inModelDefinition := false, inMetaClass := false,
               isPropertyMethod := false } := by
    unfold Analyzer.stepA
    rw [if_neg hnp]
    simp only [hnc]
    rw [hcm]
    simp only [hin, if_true]
    unfold bodyStep
    rw [if_neg hne, if_neg (by simp [hnm]), if_pos hind]
  intro rest
  rw [List.foldl_cons, hstep]
  obtain ⟨t2, h2⟩ := foldA_models_extend al di ibc rest _
  obtain ⟨t3, h3⟩ := finalizeScan_extend (List.foldl (Analyzer.stepA al di ibc) _ rest)
  refine ⟨t2 ++ t3, ?_⟩
  rw [h3, h2]
  simp

/-- Witness for the amended claim C3: a top-level assignment line closes the
open record, which then survives two further lines (a new class and a
field) unchanged. -/
theorem dedent_terminates_amended_witness :
    (∃ suffix,
      finalizeScan (List.foldl
        (Analyzer.stepA none [] [])
        ⟨[], some ⟨"Foo", 0, [⟨"a", "CharField", 1, false⟩]⟩, true, false, 0, 4,
          "", "", 0, 0, false, ["Foo"]⟩
        ((2, "X = 5") :: [(3, "class Bar(models.Model):"), (4, "    b = models.CharField()")])) =
      [] ++ (⟨"Foo", 0, [⟨"a", "CharField", 1, false⟩]⟩ : DjangoModel) :: suffix) :=
  dedent_terminates_amended none [] []
    ⟨[], some ⟨"Foo", 0, [⟨"a", "CharField", 1, false⟩]⟩, true, false, 0, 4,
      "", "", 0, 0, false, ["Foo"]⟩
    ⟨"Foo", 0, [⟨"a", "CharField", 1, false⟩]⟩ 2 "X = 5"
    (by decide) (by decide) (by decide) (by decide) (by decide) (by decide) (by decide)
    [(3, "class Bar(models.Model):"), (4, "    b = models.CharField()")]

end Dse

namespace Dse

/-- While a multi-line field is open, a continuation line reaches exactly
the continuation branch of the scanner. -/
theorem stepA_contLine (al : Option String) (di : List String)
    (ibc : List (String × String)) (s : ScanState) (m : DjangoModel)
    (i : Nat) (line : String)
    (hcm : s.currentModel = some m) (hin : s.inModelDefinition = true)
    (hmeta : s.inMetaClass = false) (hprop : s.isPropertyMethod = false)
    (hfn : s.currentFieldName ≠ "") (hft : s.currentFieldType ≠ "")
    (hpos : 0 < s.parenthesesCount)
    (hne : trimS line ≠ "") (hnp : trimS line ≠ "@property")
    (hnc : matchClassHeaderA line = none) (hnm : matchMeta line = false)
    (hind : s.classIndentation < indentOf line)
    (hfm : fieldMatchAll al di line = none) :
    Analyzer.stepA al di ibc s (i, line) = contCase line s m := by
  unfold Analyzer.stepA
  rw [if_neg hnp]
  simp only [hnc]
  rw [hcm]
  simp only [hin, if_true]
  unfold bodyStep
  rw [if_neg hne]
  rw [if_neg (by simp [hnm])]
  rw [if_neg (Nat.not_le.mpr hind)]
  rw [if_neg (by simp [hmeta])]
  rw [if_neg (by simp [hprop])]
  simp only [hfm]
  rw [if_pos (by simp [hfn, hft, hpos])]

/-- Folding a continuation run: the scanner consumes the run, touching only
the parenthesis counter, and on the closing line finalizes the pending
field — exactly once, with its original declaration line — resuming with a
clean pending-field state. -/
theorem contRun_fold (al : Option String) (di : List String)
    (ibc : List (String × String)) :
    ∀ (rest : List (Nat × String)) (s : ScanState) (m : DjangoModel),
      s.currentModel = some m → s.inModelDefinition = true →
      s.inMetaClass = false → s.isPropertyMethod = false →
      s.currentFieldName ≠ "" → s.currentFieldType ≠ "" →
      0 < s.parenthesesCount →
      ContRun al di s.classIndentation s.parenthesesCount rest →
      List.foldl (Analyzer.stepA al di ibc) s rest =
        { s with
            currentModel := some (pushCurField m ⟨s.currentFieldName, s.currentFieldType, s.currentFieldLine, false⟩),
            currentFieldName := "",
            currentFieldType := "",
            parenthesesCount := 0 } := by
  intro rest
  induction rest with
  | nil => intro s m _ _ _ _ _ _ _ hrun; exact absurd hrun (by simp [ContRun])
  | cons x tl ih =>
    intro s m hcm hin hmeta hprop hfn hft hpos hrun
    obtain ⟨i, line⟩ := x
    cases tl with
    | nil =>
      obtain ⟨hok, hzero⟩ := hrun
      simp only [contLineOkA, Bool.and_eq_true, bne_iff_ne, ne_eq,
        Option.isNone_iff_eq_none, Bool.not_eq_true', decide_eq_true_eq] at hok
      obtain ⟨⟨⟨⟨⟨hne, hnp⟩, hnc⟩, hnm⟩, hind⟩, hfm⟩ := hok
      rw [List.foldl_cons, List.foldl_nil,
        stepA_contLine al di ibc s m i line hcm hin hmeta hprop hfn hft hpos
          hne hnp hnc hnm hind hfm]
      unfold contCase
      rw [if_pos hzero, hzero]
    | cons y tl2 =>
      obtain ⟨hok, hpos', hrun'⟩ := hrun
      simp only [contLineOkA, Bool.and_eq_true, bne_iff_ne, ne_eq,
        Option.isNone_iff_eq_none, Bool.not_eq_true', decide_eq_true_eq] at hok
      obtain ⟨⟨⟨⟨⟨hne, hnp⟩, hnc⟩, hnm⟩, hind⟩, hfm⟩ := hok
      rw [List.foldl_cons,
        stepA_contLine al di ibc s m i line hcm hin hmeta hprop hfn hft hpos
          hne hnp hnc hnm hind hfm]
      have hpos2 : 0 < s.parenthesesCount + parenDeltaS line := hpos'
      have hstep : contCase line s m =
          { s with parenthesesCount := s.parenthesesCount + parenDeltaS line } := by
        unfold contCase
        rw [if_neg (by omega)]
      rw [hstep]
      exact ih { s with parenthesesCount := s.parenthesesCount + parenDeltaS line }
        m hcm hin hmeta hprop hfn hft hpos' hrun'

end Dse

namespace Dse

/-- Opening step of a multi-line field: a field-pattern line with no pending
field and an unbalanced captured rest opens the field (name, type, line,
start indentation, parenthesis count) without touching the record. -/
theorem stepA_fieldOpen (al : Option String) (di : List String)
    (ibc : List (String × String)) (s : ScanState) (m : DjangoModel)
    (i : Nat) (l0 n t r0 : String)
    (hcm : s.currentModel = some m) (hin : s.inModelDefinition = true)
    (hmeta : s.inMetaClass = false) (hprop : s.isPropertyMethod = false)
    (hnofield : s.currentFieldName = "")
    (hne : trimS l0 ≠ "") (hnp : trimS l0 ≠ "@property")
    (hnc : matchClassHeaderA l0 = none) (hnm : matchMeta l0 = false)
    (hind : s.classIndentation < indentOf l0)
    (hfm : fieldMatchAll al di l0 = some (n, t, r0))
    (hopen : parenDeltaS r0 ≠ 0) :
    Analyzer.stepA al di ibc s (i, l0) =
      { s with currentModel := some m, currentFieldName := n, currentFieldType := t,
               currentFieldLine := i, fieldStartIndentation := indentOf l0,
               parenthesesCount := parenDeltaS r0 } := by
  unfold Analyzer.stepA
  rw [if_neg hnp]
  simp only [hnc]
  rw [hcm]
  simp only [hin, if_true]
  unfold bodyStep
  rw [if_neg hne]
  rw [if_neg (by simp [hnm])]
  rw [if_neg (Nat.not_le.mpr hind)]
  rw [if_neg (by simp [hmeta])]
  rw [if_neg (by simp [hprop])]
  simp only [hfm]
  unfold fieldCase
  rw [if_neg (show ¬((decide (s.currentFieldName ≠ "") &&
      decide (s.currentFieldType ≠ "")) = true) by simp [hnofield])]
  rw [if_neg hopen, hin]

/-- Claim C4: a field whose definition opens at line `i` with an unbalanced
parenthesis count and whose continuation run reaches balance exactly at its
last line is finalized as precisely ONE field, carrying the ORIGINAL
declaration line `i` (never a continuation line); the scan resumes with a
clean pending-field state and the output list untouched. -/
theorem multiline_field_declarationLine (al : Option String) (di : List String)
    (ibc : List (String × String)) (s : ScanState) (m : DjangoModel)
    (i : Nat) (l0 n t r0 : String) (rest : List (Nat × String))
    (hcm : s.currentModel = some m) (hin : s.inModelDefinition = true)
    (hmeta : s.inMetaClass = false) (hprop : s.isPropertyMethod = false)
    (hnofield : s.currentFieldName = "")
    (hne : trimS l0 ≠ "") (hnp : trimS l0 ≠ "@property")
    (hnc : matchClassHeaderA l0 = none) (hnm : matchMeta l0 = false)
    (hind : s.classIndentation < indentOf l0)
    (hfm : fieldMatchAll al di l0 = some (n, t, r0))
    (hn : n ≠ "") (ht : t ≠ "")
    (hopen : 0 < parenDeltaS r0)
    (hrun : ContRun al di s.classIndentation (parenDeltaS r0) rest) :
    List.foldl (Analyzer.stepA al di ibc) s ((i, l0) :: rest) =
      { s with
          currentModel := some (pushCurField m ⟨n, t, i, false⟩),
          currentFieldName := "",
          currentFieldType := "",
          currentFieldLine := i,
          fieldStartIndentation := indentOf l0,
          parenthesesCount := 0 } := by
  rw [List.foldl_cons,
    stepA_fieldOpen al di ibc s m i l0 n t r0 hcm hin hmeta hprop hnofield
      hne hnp hnc hnm hind hfm (by omega)]
  exact contRun_fold al di ibc rest
    { s with currentModel := some m, currentFieldName := n, currentFieldType := t,
             currentFieldLine := i, fieldStartIndentation := indentOf l0,
             parenthesesCount := parenDeltaS r0 }
    m rfl hin hmeta hprop hn ht hopen hrun

end Dse

namespace Dse

/-- Witness for C4: the field `x` opens at line 1 with an unbalanced rest,
spans two continuation lines, balances on line 3, and is recorded exactly
once with declarationLine 1. -/
theorem multiline_field_declarationLine_witness :
    List.foldl (Analyzer.stepA none [] [])
        ⟨[], some ⟨"Foo", 0, []⟩, true, false, 0, 0, "", "", 0, 0, false, ["Foo"]⟩
        [(1, "    x = models.CharField(choices=((1,2),"),
         (2, "        (3,4),"), (3, "        max_length=5)")] =
      ⟨[], some ⟨"Foo", 0, [⟨"x", "CharField", 1, false⟩]⟩, true, false, 0, 4,
        "", "", 1, 0, false, ["Foo"]⟩ :=
  multiline_field_declarationLine none [] []
    ⟨[], some ⟨"Foo", 0, []⟩, true, false, 0, 0, "", "", 0, 0, false, ["Foo"]⟩
    ⟨"Foo", 0, []⟩ 1 "    x = models.CharField(choices=((1,2)," "x" "CharField"
    "choices=((1,2)," [(2, "        (3,4),"), (3, "        max_length=5)")]
    (by decide) (by decide) (by decide) (by decide) (by decide) (by decide)
    (by decide) (by decide) (by decide) (by decide) (by decide) (by decide)
    (by decide) (by decide)
    ⟨by decide, by decide, by decide, by decide⟩

end Dse

namespace Dse

/-- `insertNew` leaves the list a prefix of the result. -/
theorem insertNew_append (l : List String) (x : String) :
    ∃ t, insertNew l x = l ++ t := by
  unfold insertNew
  split
  · exact ⟨[], (List.append_nil _).symm⟩
  · exact ⟨[x], rfl⟩

/-- `insertNew` contains the inserted element. -/
theorem mem_insertNew (l : List String) (x : String) : x ∈ insertNew l x := by
  unfold insertNew
  split
  · next h => exact (List.elem_iff).mp h
  · exact List.mem_append_right l (List.mem_singleton.mpr rfl)

/-- `insertNew` preserves freedom from duplicates. -/
theorem insertNew_nodup {l : List String} (h : l.Nodup) (x : String) :
    (insertNew l x).Nodup := by
  unfold insertNew
  split
  · exact h
  · next hc =>
    rw [← List.concat_eq_append]
    exact List.Nodup.concat (fun hm => hc ((List.elem_iff).mpr hm)) h

/-- Elements of `insertNew l x` come from `l` or are `x`. -/
theorem mem_insertNew_src {l : List String} {x y : String}
    (h : y ∈ insertNew l x) : y ∈ l ∨ y = x := by
  unfold insertNew at h
  split at h
  · exact Or.inl h
  · rcases List.mem_append.mp h with h1 | h1
    · exact Or.inl h1
    · exact Or.inr (List.mem_singleton.mp h1)

end Dse

namespace Dse.AnalyzerOpt

open Dse

/-- One closure pass only appends. -/
theorem onePassB_append (lines : List String) :
    ∀ s : List String, ∃ t, onePassB lines s = s ++ t := by
  unfold onePassB
  induction lines with
  | nil => intro s; exact ⟨[], (List.append_nil _).symm⟩
  | cons l ls ih =>
    intro s
    rw [List.foldl_cons]
    have hstep : ∃ t0, (match classLineB l with
        | some p =>
          if s.contains p.1 then s
          else if p.2.any s.contains then insertNew s p.1 else s
        | none => s) = s ++ t0 := by
      split
      · split
        · exact ⟨[], (List.append_nil _).symm⟩
        · split
          · exact insertNew_append _ _
          · exact ⟨[], (List.append_nil _).symm⟩
      · exact ⟨[], (List.append_nil _).symm⟩
    obtain ⟨t0, ht0⟩ := hstep
    rw [ht0]
    obtain ⟨t1, ht1⟩ := ih (s ++ t0)
    exact ⟨t0 ++ t1, by rw [ht1, List.append_assoc]⟩

/-- One closure pass preserves membership. -/
theorem onePassB_subset (lines : List String) (s : List String) :
    s ⊆ onePassB lines s := by
  obtain ⟨t, ht⟩ := onePassB_append lines s
  rw [ht]
  exact fun x hx => List.mem_append_left t hx

/-- One closure pass preserves freedom from duplicates. -/
theorem onePassB_nodup (lines : List String) :
    ∀ s : List String, s.Nodup → (onePassB lines s).Nodup := by
  unfold onePassB
  induction lines with
  | nil => intro s h; exact h
  | cons l ls ih =>
    intro s h
    rw [List.foldl_cons]
    apply ih
    split
    · split
      · exact h
      · split
        · exact insertNew_nodup h _
        · exact h
    · exact h

/-- Elements of a closure pass come from the input set or are declared class
names. -/
theorem onePassB_mem_src (lines : List String) :
    ∀ (s : List String) (x : String), x ∈ onePassB lines s →
      x ∈ s ∨ x ∈ classNamesB lines := by
  unfold onePassB
  induction lines with
  | nil => intro s x hx; exact Or.inl hx
  | cons l ls ih =>
    intro s x hx
    rw [List.foldl_cons] at hx
    rcases ih _ x hx with h1 | h1
    · revert h1
      split
      · next p hp =>
        split
        · exact fun h1 => Or.inl h1
        · split
          · intro h1
            rcases mem_insertNew_src h1 with h2 | h2
            · exact Or.inl h2
            · subst h2
              refine Or.inr (List.mem_filterMap.mpr ⟨l, List.mem_cons_self _ _, ?_⟩)
              rw [hp]
              rfl
          · exact fun h1 => Or.inl h1
      · exact fun h1 => Or.inl h1
    · refine Or.inr ?_
      obtain ⟨a, ha, hfa⟩ := List.mem_filterMap.mp h1
      exact List.mem_filterMap.mpr ⟨a, List.mem_cons_of_mem _ ha, hfa⟩

/-- A class declaration one of whose bases is already in the set lands in
the set after one pass. -/
theorem onePassB_adds (lines : List String) :
    ∀ (s : List String) (line name : String) (bases : List String),
      line ∈ lines → classLineB line = some (name, bases) →
      (∃ b ∈ bases, b ∈ s) → name ∈ onePassB lines s := by
  unfold onePassB
  induction lines with
  | nil => intro s line name bases h; exact absurd h (List.not_mem_nil line)
  | cons l ls ih =>
    intro s line name bases hline hcl hbase
    rw [List.foldl_cons]
    rcases List.mem_cons.mp hline with h1 | h1
    · subst h1
      have hmem : name ∈ (match classLineB line with
          | some p =>
            if s.contains p.1 then s
            else if p.2.any s.contains then insertNew s p.1 else s
          | none => s) := by
        rw [hcl]
        by_cases hc : s.contains name
        · simp only [hc, if_true]
          exact List.elem_iff.mp hc
        · simp only [hc, Bool.false_eq_true, if_false]
          have hany : bases.any s.contains = true := by
            obtain ⟨b, hb, hbs⟩ := hbase
            exact List.any_eq_true.mpr ⟨b, hb, List.elem_iff.mpr hbs⟩
          simp only [hany, if_true]
          exact mem_insertNew s name
      have := onePassB_subset ls _ hmem
      unfold onePassB at this
      exact this
    · apply ih _ line name bases h1 hcl
      obtain ⟨b, hb, hbs⟩ := hbase
      refine ⟨b, hb, ?_⟩
      revert hbs
      split
      · split
        · exact fun h => h
        · split
          · intro h
            obtain ⟨t, ht⟩ := insertNew_append s _
            rw [ht]
            exact List.mem_append_left t h
          · exact fun h => h
      · exact fun h => h

end Dse.AnalyzerOpt

namespace Dse.AnalyzerOpt

open Dse

/-- The first pass produces a duplicate-free list of declared class names. -/
theorem pass1B_nodup_mem (ibc : List (String × String)) (lines : List String) :
    (pass1B ibc lines).Nodup ∧ ∀ x ∈ pass1B ibc lines, x ∈ classNamesB lines := by
  unfold pass1B
  have main : ∀ (ls : List String) (s : List String), s.Nodup →
      (∀ x ∈ s, x ∈ classNamesB lines) →
      (∀ l ∈ ls, l ∈ lines) →
      (List.foldl (fun acc l =>
        match classLineB l with
        | some p =>
          if p.2.any (fun b => modelBaseClasses.contains (lastSegOrSelf b) || isDjangoModelB ibc b) then
            insertNew acc p.1
          else acc
        | none => acc) s ls).Nodup ∧
      ∀ x ∈ (List.foldl (fun acc l =>
        match classLineB l with
        | some p =>
          if p.2.any (fun b => modelBaseClasses.contains (lastSegOrSelf b) || isDjangoModelB ibc b) then
            insertNew acc p.1
          else acc
        | none => acc) s ls), x ∈ classNamesB lines := by
    intro ls
    induction ls with
    | nil => intro s h1 h2 _; exact ⟨h1, h2⟩
    | cons l ls2 ih =>
      intro s h1 h2 hsub
      rw [List.foldl_cons]
      apply ih
      · split
        · split
          · exact insertNew_nodup h1 _
          · exact h1
        · exact h1
      · intro x hx
        revert hx
        split
        · next p hp =>
          split
          · intro hx
            rcases mem_insertNew_src hx with h3 | h3
            · exact h2 x h3
            · subst h3
              refine List.mem_filterMap.mpr ⟨l, hsub l (List.mem_cons_self _ _), ?_⟩
              rw [hp]
              rfl
          · exact h2 x
        · exact h2 x
      · exact fun a ha => hsub a (List.mem_cons_of_mem _ ha)
  exact main lines [] List.nodup_nil (fun x hx => absurd hx (List.not_mem_nil x))
    (fun l hl => hl)

/-- With `lines.length + 1` iterations the closure loop reaches a fixed
point: one more pass adds nothing new. -/
theorem closureIter_fix (lines : List String) :
    ∀ (n : Nat) (s : List String), s.Nodup → (∀ x ∈ s, x ∈ classNamesB lines) →
      (classNamesB lines).length < s.length + n →
      onePassB lines (closureIter lines n s) = closureIter lines n s := by
  intro n
  induction n with
  | zero =>
    intro s hnd hsub hlen
    have : s.length ≤ (classNamesB lines).length :=
      (List.Nodup.subperm hnd hsub).length_le
    omega
  | succ n ih =>
    intro s hnd hsub hlen
    unfold closureIter
    by_cases heq : onePassB lines s = s
    · rw [if_pos heq]
      exact heq
    · rw [if_neg heq]
      obtain ⟨t, ht⟩ := onePassB_append lines s
      have htne : t ≠ [] := by
        intro h0
        rw [h0, List.append_nil] at ht
        exact heq ht
      have hgrow : s.length < (onePassB lines s).length := by
        rw [ht, List.length_append]
        cases t with
        | nil => exact absurd rfl htne
        | cons a b => simp
      apply ih
      · exact onePassB_nodup lines s hnd
      · intro x hx
        rcases onePassB_mem_src lines s x hx with h1 | h1
        · exact hsub x h1
        · exact h1
      · omega

/-- The model-class set of the optimized analyzer is a fixed point of the
closure pass. -/
theorem modelClassesB_fix (ibc : List (String × String)) (lines : List String) :
    onePassB lines (modelClassesB ibc lines) = modelClassesB ibc lines := by
  unfold modelClassesB
  obtain ⟨hnd, hsub⟩ := pass1B_nodup_mem ibc lines
  apply closureIter_fix lines (lines.length + 1) _ hnd hsub
  have h1 : (classNamesB lines).length ≤ lines.length :=
    List.length_filterMap_le _ lines
  omega

/-- The model-class set is closed under local inheritance: a class one of
whose bases is a known model class is itself a known model class. -/
theorem modelClassesB_closed (ibc : List (String × String)) (lines : List String)
    (line name : String) (bases : List String)
    (hline : line ∈ lines) (hcl : classLineB line = some (name, bases))
    (hbase : ∃ b ∈ bases, b ∈ modelClassesB ibc lines) :
    name ∈ modelClassesB ibc lines := by
  rw [← modelClassesB_fix ibc lines]
  exact onePassB_adds lines (modelClassesB ibc lines) line name bases hline hcl hbase

end Dse.AnalyzerOpt

namespace Dse

/-- If the first character of a line is not whitespace, trimming keeps it in
front (or yields the empty list). -/
theorem trimL_not_space_head {c : Char} (h : jsSpace c = false) (cs : List Char) :
    trimL (c :: cs) = [] ∨ ∃ tl, trimL (c :: cs) = c :: tl := by
  unfold trimL
  rw [List.dropWhile_cons, if_neg (by simp [h])]
  have hsuf : (List.dropWhile jsSpace (c :: cs).reverse) <:+ (c :: cs).reverse :=
    List.dropWhile_suffix _
  obtain ⟨u, hu⟩ := hsuf
  have hu2 : (List.dropWhile jsSpace (c :: cs).reverse).reverse ++ u.reverse = c :: cs := by
    rw [← List.reverse_append, hu, List.reverse_reverse]
  cases hrev : (List.dropWhile jsSpace (c :: cs).reverse).reverse with
  | nil => exact Or.inl rfl
  | cons b bs =>
    right
    rw [hrev] at hu2
    rw [List.cons_append] at hu2
    injection hu2 with h1 _
    exact ⟨bs, by rw [h1]⟩

/-- A line matched by the raw class matcher is not a lone decorator line. -/
theorem rawClass_not_property {line : String} (h : (rawClassMatch line).isSome) :
    trimS line ≠ "@property" := by
  intro heq
  have hpre : hasPrefixL "class".data line.data = true := by
    by_contra hc
    unfold rawClassMatch eatLit at h
    rw [if_neg hc] at h
    simp at h
  cases hd : line.data with
  | nil => rw [hd] at hpre; exact absurd hpre (by decide)
  | cons c0 rest =>
    rw [hd] at hpre
    have hred : hasPrefixL "class".data (c0 :: rest) =
        (('c' == c0) && hasPrefixL "lass".data rest) := rfl
    rw [hred] at hpre
    obtain ⟨hc0, _⟩ := Bool.and_eq_true_iff.mp hpre
    have hc0' : c0 = 'c' := (beq_iff_eq.mp hc0).symm
    subst hc0'
    have hdata : trimL line.data = ("@property" : String).data :=
      congrArg String.data heq
    rw [hd] at hdata
    rcases trimL_not_space_head (c := 'c') (by decide) rest with h0 | ⟨tl, h1⟩
    · rw [h0] at hdata
      exact absurd hdata (by decide)
    · rw [h1] at hdata
      have hq : ("@property" : String).data = '@' :: ("property" : String).data := rfl
      rw [hq] at hdata
      injection hdata with ha _
      exact absurd ha (by decide)

end Dse

namespace Dse.AnalyzerOpt

open Dse

/-- Every step of the optimized scan only appends to the output list. -/
theorem stepB_models_extend (al : Option String) (di : List String)
    (mc : List String) (s : ScanState) (x : Nat × String) :
    ∃ t, (stepB al di mc s x).models = s.models ++ t := by
  unfold stepB
  split
  · exact ⟨[], (List.append_nil _).symm⟩
  · split
    · split
      · exact ⟨_, rfl⟩
      · split
        · next m heq =>
          split
          · rcases bodyStep_shape al di x.1 x.2 (indentOf x.2) s m heq with ⟨h1, _⟩ | ⟨h1, _⟩
            · exact ⟨[], by rw [h1, List.append_nil]⟩
            · exact ⟨[m], h1⟩
          · exact ⟨[], (List.append_nil _).symm⟩
        · exact ⟨[], (List.append_nil _).symm⟩
    · split
      · next m heq =>
        split
        · rcases bodyStep_shape al di x.1 x.2 (indentOf x.2) s m heq with ⟨h1, _⟩ | ⟨h1, _⟩
          · exact ⟨[], by rw [h1, List.append_nil]⟩
          · exact ⟨[m], h1⟩
        · exact ⟨[], (List.append_nil _).symm⟩
      · exact ⟨[], (List.append_nil _).symm⟩

/-- One optimized-scan step preserves the presence of a record (by name and
declaration line) in the output or as the open record. -/
theorem stepB_pres (al : Option String) (di : List String) (mc : List String)
    (x : Nat × String) (nm : String) (ln : Nat) (s : ScanState)
    (h : (∃ mo ∈ s.models, mo.name = nm ∧ mo.lineNumber = ln) ∨
         (∃ mo, s.currentModel = some mo ∧ mo.name = nm ∧ mo.lineNumber = ln)) :
    (∃ mo ∈ (stepB al di mc s x).models, mo.name = nm ∧ mo.lineNumber = ln) ∨
    (∃ mo, (stepB al di mc s x).currentModel = some mo ∧
      mo.name = nm ∧ mo.lineNumber = ln) := by
  rcases h with ⟨mo, hmo, hp⟩ | ⟨mo, hcm, hp⟩
  · left
    obtain ⟨t, ht⟩ := stepB_models_extend al di mc s x
    exact ⟨mo, by rw [ht]; exact List.mem_append_left t hmo, hp⟩
  · unfold stepB
    split
    · exact Or.inr ⟨mo, hcm, hp⟩
    · split
      · split
        · left
          refine ⟨mo, ?_, hp⟩
          show mo ∈ s.models ++ (s.currentModel.map fun m => [m]).getD []
          rw [hcm]
          exact List.mem_append_right _ (List.mem_singleton.mpr rfl)
        · split
          · next m heq2 =>
            have hm : m = mo := by
              rw [hcm] at heq2
              exact (Option.some.injEq _ _ ▸ heq2).symm
            subst hm
            split
            · rcases bodyStep_shape al di x.1 x.2 (indentOf x.2) s m heq2 with
                ⟨_, mo', hcm', hn, hl⟩ | ⟨hmodels, _⟩
              · exact Or.inr ⟨mo', hcm', by rw [hn, hp.1], by rw [hl, hp.2]⟩
              · refine Or.inl ⟨m, ?_, hp⟩
                rw [hmodels]
                exact List.mem_append_right _ (List.mem_singleton.mpr rfl)
            · exact Or.inr ⟨m, hcm, hp⟩
          · next heq2 =>
            rw [hcm] at heq2
            exact absurd heq2 (by simp)
      · split
        · next m heq2 =>
          have hm : m = mo := by
            rw [hcm] at heq2
            exact (Option.some.injEq _ _ ▸ heq2).symm
          subst hm
          split
          · rcases bodyStep_shape al di x.1 x.2 (indentOf x.2) s m heq2 with
              ⟨_, mo', hcm', hn, hl⟩ | ⟨hmodels, _⟩
            · exact Or.inr ⟨mo', hcm', by rw [hn, hp.1], by rw [hl, hp.2]⟩
            · refine Or.inl ⟨m, ?_, hp⟩
              rw [hmodels]
              exact List.mem_append_right _ (List.mem_singleton.mpr rfl)
          · exact Or.inr ⟨m, hcm, hp⟩
        · next heq2 =>
          rw [hcm] at heq2
          exact absurd heq2 (by simp)

end Dse.AnalyzerOpt

namespace Dse.AnalyzerOpt

open Dse

/-- A top-level class header whose name is a known model class opens a new
record at that line. -/
theorem stepB_opens (al : Option String) (di : List String) (mc : List String)
    (s : ScanState) (i : Nat) (line name : String)
    (hraw : rawClassMatch line = some name) (hmc : mc.contains name = true) :
    (stepB al di mc s (i, line)).currentModel = some ⟨name, i, []⟩ := by
  unfold stepB
  rw [if_neg (rawClass_not_property (by rw [hraw]; rfl))]
  simp only [hraw]
  rw [if_pos hmc]

/-- Folding preserves the presence of a record in the output or as the open
record. -/
theorem foldB_pres (al : Option String) (di : List String) (mc : List String)
    (nm : String) (ln : Nat) :
    ∀ (rest : List (Nat × String)) (s : ScanState),
      ((∃ mo ∈ s.models, mo.name = nm ∧ mo.lineNumber = ln) ∨
       (∃ mo, s.currentModel = some mo ∧ mo.name = nm ∧ mo.lineNumber = ln)) →
      ((∃ mo ∈ (List.foldl (stepB al di mc) s rest).models,
          mo.name = nm ∧ mo.lineNumber = ln) ∨
       (∃ mo, (List.foldl (stepB al di mc) s rest).currentModel = some mo ∧
          mo.name = nm ∧ mo.lineNumber = ln)) := by
  intro rest
  induction rest with
  | nil => intro s h; exact h
  | cons x tl ih =>
    intro s h
    rw [List.foldl_cons]
    exact ih _ (stepB_pres al di mc x nm ln s h)

/-- The end-of-file flush keeps every present record in the final output. -/
theorem finalizeScan_pres (s : ScanState) (nm : String) (ln : Nat)
    (h : (∃ mo ∈ s.models, mo.name = nm ∧ mo.lineNumber = ln) ∨
         (∃ mo, s.currentModel = some mo ∧ mo.name = nm ∧ mo.lineNumber = ln)) :
    ∃ mo ∈ finalizeScan s, mo.name = nm ∧ mo.lineNumber = ln := by
  unfold finalizeScan
  rcases h with ⟨mo, hm, hp⟩ | ⟨mo, hcm, hp⟩
  · split
    · exact ⟨mo, hm, hp⟩
    · exact ⟨mo, List.mem_append_left _ hm, hp⟩
  · split
    · next heq => rw [heq] at hcm; exact absurd hcm (by simp)
    · next m heq =>
      rw [heq] at hcm
      have hm2 : m = mo := by
        simp only [Option.some.injEq] at hcm
        exact hcm
      subst hm2
      split
      · exact ⟨_, List.mem_append_right _ (List.mem_singleton.mpr rfl),
          by simp [pushCurField, hp.1], by simp [pushCurField, hp.2]⟩
      · exact ⟨m, List.mem_append_right _ (List.mem_singleton.mpr rfl), hp⟩

/-- Claim C1: the record set of the optimized model extractor is closed
under local inheritance, computed by iterated rescanning until a pass adds
nothing new: a (top-level) class declaration one of whose bases is a known
record name is itself a known record name AND appears in the extractor's
output with its declaration line — regardless of where in the file the
record class it inherits from is declared. -/
theorem extractModels_closed_under_inheritance (lines : List String)
    (i : Nat) (line name : String) (bases : List String)
    (hline : lines.get? i = some line)
    (hcl : classLineB line = some (name, bases))
    (hraw : rawClassMatch line = some name)
    (hbase : ∃ b ∈ bases, b ∈ modelClassesB (importedBaseOf lines) lines) :
    name ∈ modelClassesB (importedBaseOf lines) lines ∧
    ∃ m ∈ AnalyzerOpt.extractModels lines, m.name = name ∧ m.lineNumber = i := by
  have hmem : name ∈ modelClassesB (importedBaseOf lines) lines :=
    modelClassesB_closed _ lines line name bases (List.get?_mem hline) hcl hbase
  refine ⟨hmem, ?_⟩
  unfold AnalyzerOpt.extractModels
  have henum : (i, line) ∈ lines.enum := by
    rw [List.mem_enum_iff_get?]
    exact hline
  obtain ⟨part1, part2, hsplit⟩ := List.append_of_mem henum
  rw [hsplit]
  simp only [List.foldl_append, List.foldl_cons]
  apply finalizeScan_pres
  apply foldB_pres
  right
  refine ⟨⟨name, i, []⟩, ?_, rfl, rfl⟩
  exact stepB_opens _ _ _ _ i line name hraw (List.elem_iff.mpr hmem)

/-- Witness for C1 (concrete scenario D): `Child` inherits from the locally
declared record class `Parent`, which is declared AFTER it; `Child` is in
the model-class set and in the output. -/
theorem extractModels_closed_under_inheritance_witness :
    "Child" ∈ modelClassesB
        (importedBaseOf ["class Child(Parent):", "    c = models.CharField(x=1)",
          "class Parent(models.Model):", "    p = models.IntegerField(y=2)"])
        ["class Child(Parent):", "    c = models.CharField(x=1)",
          "class Parent(models.Model):", "    p = models.IntegerField(y=2)"] ∧
    ∃ m ∈ AnalyzerOpt.extractModels
        ["class Child(Parent):", "    c = models.CharField(x=1)",
          "class Parent(models.Model):", "    p = models.IntegerField(y=2)"],
      m.name = "Child" ∧ m.lineNumber = 0 :=
  extractModels_closed_under_inheritance
    ["class Child(Parent):", "    c = models.CharField(x=1)",
      "class Parent(models.Model):", "    p = models.IntegerField(y=2)"]
    0 "class Child(Parent):" "Child" ["Parent"]
    (by decide) (by decide) (by decide)
    ⟨"Parent", by decide, by decide⟩

end Dse.AnalyzerOpt
